import Mathlib

/-!
Verification development for the yaml2pdf resume builder
(`generate_resume.py`).  Text is modelled as `List Char`; each Python
string operation used by the program is embedded as an executable Lean
function and the section formatters are translated function by function.
-/

namespace YamlResume

/-- Text, modelled as a list of characters. -/
abbrev Str := List Char

/-- Convert a Lean string literal to our text representation. -/
def str (s : String) : Str := s.toList

/-- Worker for `replaceAll`.  The `Nat` argument counts characters still
to be skipped because they belong to an occurrence that has already been
replaced. -/
def replaceAllAux (pat rep : Str) : Nat → Str → Str
  | _, [] => []
  | Nat.succ k, _ :: cs => replaceAllAux pat rep k cs
  | 0, c :: cs =>
    if pat.isPrefixOf (c :: cs) = true ∧ pat ≠ [] then
      rep ++ replaceAllAux pat rep (pat.length - 1) cs
    else
      c :: replaceAllAux pat rep 0 cs

/-- Embedding of Python `text.replace(pat, rep)`: replace every
non-overlapping occurrence of `pat` in `s` by `rep`, scanning left to
right, never rescanning replacement text.  (Python's behaviour for an
empty pattern, inserting `rep` everywhere, is not modelled; the program
only ever calls `replace` with non-empty patterns.) -/
def replaceAll (pat rep s : Str) : Str := replaceAllAux pat rep 0 s

/-! ## The Escaper (`escape_latex`, source lines 31 to 61) -/

/-- Embedding of `escape_latex`: ampersand first, then the
double-escape fix, then the remaining reserved characters in the
insertion order of the `replacements` dict of the source
(`%`, `$`, `#`, `_`, open brace, close brace, `~`, `^`).
Backslash itself is deliberately not escaped by the source. -/
def escape_latex (text : Str) : Str :=
  let t := replaceAll ['&'] (str "\\&") text
  let t := replaceAll ['\\', '\\', '&'] (str "\\&") t
  let t := replaceAll ['%'] (str "\\%") t
  let t := replaceAll ['$'] (str "\\$") t
  let t := replaceAll ['#'] (str "\\#") t
  let t := replaceAll ['_'] (str "\\_") t
  let t := replaceAll ['\x7b'] (str "\\\x7b") t
  let t := replaceAll ['\x7d'] (str "\\\x7d") t
  let t := replaceAll ['~'] (str "\\textasciitilde\x7b\x7d") t
  let t := replaceAll ['^'] (str "\\textasciicircum\x7b\x7d") t
  t

/-! ## Data model (section records as loaded from the YAML document)

Optional mapping keys are modelled as `Option Str`; Python truthiness of
such a field (key present and value non-empty) is `truthy`.  An optional
record sequence (`achievements`) is modelled as a plain list, an absent
key behaving like the empty list, exactly as Python truthiness treats it. -/

structure ContactLink where
  name : Str
  url : Str

structure Skill where
  category : Str
  items : Str

structure Achievement where
  name : Str
  description : Str

structure Experience where
  title : Str
  location : Str
  company : Str
  company_url : Option Str
  company_description : Option Str
  date_start : Str
  date_end : Str
  achievements : List Achievement

structure Education where
  degree : Str
  institution : Str
  location : Str
  date_start : Str
  date_end : Str

structure Award where
  title : Str
  organization : Str
  location : Str
  date : Str
  organization_detail : Option Str
  organization_url : Option Str

structure Cert where
  title : Str
  organization : Str
  date : Str
  url : Str

structure Pub where
  authors : Str
  title : Str
  venue : Str
  year : Str
  url : Str
deriving DecidableEq

/-- Python truthiness of an optional text field:
`"key" in record and record["key"]`. -/
def truthy (o : Option Str) : Bool :=
  match o with
  | none => false
  | some s => !s.isEmpty

/-! ## Contact links (`format_contact_links`, lines 63 to 70) -/

def format_contact_links (links : List ContactLink) : Str :=
  List.intercalate (str " $\\vert$ ")
    (links.map (fun link =>
      str "\\href\x7b" ++ link.url ++ str "\x7d\x7b" ++ escape_latex link.name ++ str "\x7d"))

/-! ## Skills (`format_skills`, lines 72 to 93) -/

def skillBlock (skill : Skill) : Str :=
  let category := replaceAll ['&'] (str "\\&") skill.category
  let items := replaceAll ['&'] (str "\\&") skill.items
  let category := escape_latex category
  let items := escape_latex items
  let category := replaceAll ['\\', '\\', '&'] (str "\\&") category
  let items := replaceAll ['\\', '\\', '&'] (str "\\&") items
  str "  \\resumeSubheading\n    \x7b" ++ category ++ str "\x7d\x7b\x7d\n    \x7b" ++
    items ++ str "\x7d\x7b\x7d\n"

def format_skills (skills : List Skill) : Str := (skills.map skillBlock).flatten

/-! ## The Inline-Link Translator
(achievement descriptions inside `format_experience`, lines 132 to 153) -/

/-- The hyperlink command form produced by the translator. -/
def mkHref (u t : Str) : Str :=
  str "\\href\x7b" ++ u ++ str "\x7d\x7b" ++ t ++ str "\x7d"

/-- Parser for one markdown-style link attempt starting just after an
opening bracket, mirroring the regex `[([^\]]+)]\(([^)]+)\)` of line 137:
a non-empty bracket-free display text, then the two middle delimiters,
then a non-empty close-paren-free url, then the closing parenthesis.
Returns display text, url and the rest of the input. -/
def parseLink (cs : Str) : Option (Str × Str × Str) :=
  let t := cs.takeWhile (fun x => x ≠ ']')
  match cs.drop t.length with
  | ']' :: '(' :: r2 =>
    let u := r2.takeWhile (fun x => x ≠ ')')
    match r2.drop u.length with
    | ')' :: r4 => if t ≠ [] ∧ u ≠ [] then some (t, u, r4) else none
    | _ => none
  | _ => none

/-- Fuelled worker for `mdSub`; the fuel is an upper bound on the input
length, making the scan structurally recursive. -/
def mdSubF : Nat → Str → Str
  | _, [] => []
  | 0, s => s
  | n + 1, c :: cs =>
    if c = '[' then
      match parseLink cs with
      | some (t, u, r) => mkHref u t ++ mdSubF n r
      | none => c :: mdSubF n cs
    else c :: mdSubF n cs

/-- Step 1 of the translator (line 137): `re.sub` of every markdown link
`[text](url)` by `\href{url}{text}`, scanning left to right. -/
def mdSub (s : Str) : Str := mdSubF s.length s

/-- Scan for the first occurrence of a literal backslash-ampersand pair,
failing if a closing brace comes first; mirrors the lazy group
`([^}]*?)\\&` of the cleanup regex of line 140. -/
def splitAtBsAmp : Str → Option (Str × Str)
  | [] => none
  | '\\' :: '&' :: r => some ([], r)
  | '\x7d' :: _ => none
  | c :: r =>
    match splitAtBsAmp r with
    | some (a, rest) => some (c :: a, rest)
    | none => none

/-- One match attempt of the cleanup regex
`\\href\{([^}]*?)\\&([^}]*?)\}` of line 140 at the head of the input;
returns the two groups and the rest of the input. -/
def parseCleanupAt (s : Str) : Option (Str × Str × Str) :=
  if (str "\\href\x7b").isPrefixOf s = true then
    match splitAtBsAmp (s.drop 6) with
    | some (a, r1) =>
      let b := r1.takeWhile (fun x => x ≠ '\x7d')
      match r1.drop b.length with
      | '\x7d' :: r3 => some (a, b, r3)
      | _ => none
    | none => none
  else none

/-- Fuelled worker for `hrefCleanup`. -/
def hrefCleanupF : Nat → Str → Str
  | _, [] => []
  | 0, s => s
  | n + 1, c :: cs =>
    match parseCleanupAt (c :: cs) with
    | some (a, b, r) =>
      str "\\href\x7b" ++ a ++ '&' :: b ++ '\x7d' :: hrefCleanupF n r
    | none => c :: hrefCleanupF n cs

/-- Step 2 of the translator (line 140): drop the escaping backslash of
a backslash-ampersand pair inside an already produced hyperlink command. -/
def hrefCleanup (s : Str) : Str := hrefCleanupF s.length s

/-- One match attempt of the findall regex `\\href\{[^}]*\}\{[^}]*\}` of
line 144 at the head of the input; returns the whole matched command and
the rest of the input. -/
def parseHrefAt (s : Str) : Option (Str × Str) :=
  if (str "\\href\x7b").isPrefixOf s = true then
    let r0 := s.drop 6
    let u := r0.takeWhile (fun x => x ≠ '\x7d')
    match r0.drop u.length with
    | '\x7d' :: '\x7b' :: r1 =>
      let t := r1.takeWhile (fun x => x ≠ '\x7d')
      match r1.drop t.length with
      | '\x7d' :: r2 => some (mkHref u t, r2)
      | _ => none
    | _ => none
  else none

/-- Fuelled worker for `findHrefs`. -/
def findHrefsF : Nat → Str → List Str
  | _, [] => []
  | 0, _ => []
  | n + 1, c :: cs =>
    match parseHrefAt (c :: cs) with
    | some (m, r) => m :: findHrefsF n r
    | none => findHrefsF n cs

/-- `re.findall` of the hyperlink command pattern (line 144): the list of
non-overlapping command occurrences, left to right. -/
def findHrefs (s : Str) : List Str := findHrefsF s.length s

/-- The placeholder token `HREFPLACEHOLDER{i}` of lines 146 and 153. -/
def placeholderTok (i : Nat) : Str := str "HREFPLACEHOLDER" ++ Nat.toDigits 10 i

/-- The protection loop of lines 145 to 146: replace each found command
by its indexed placeholder, in order. -/
def protectHrefs : Nat → List Str → Str → Str
  | _, [], d => d
  | i, m :: ms, d => protectHrefs (i + 1) ms (replaceAll m (placeholderTok i) d)

/-- The restoration loop of lines 152 to 153: replace each indexed
placeholder back by its command, in order. -/
def restoreHrefs : Nat → List Str → Str → Str
  | _, [], d => d
  | i, m :: ms, d => restoreHrefs (i + 1) ms (replaceAll (placeholderTok i) m d)

/-- The complete Inline-Link Translator applied to one achievement
description (lines 133 to 153): markdown links to hyperlink commands,
ampersand cleanup inside commands, placeholder protection, escaping of
the remaining text, restoration. -/
def translate_links (description : Str) : Str :=
  let d1 := mdSub description
  let d2 := hrefCleanup d1
  let ms := findHrefs d2
  let d3 := protectHrefs 0 ms d2
  let d4 := escape_latex d3
  restoreHrefs 0 ms d4

/-! ## Experience (`format_experience`, lines 95 to 161) -/

/-- The company-display string of lines 104 to 116. -/
def companyText (exp : Experience) : Str :=
  if truthy exp.company_description then
    if truthy exp.company_url then
      str "\\href\x7b" ++ exp.company_url.getD [] ++ str "\x7d\x7b" ++
        escape_latex exp.company ++ str "\x7d\x7b: " ++
        escape_latex (exp.company_description.getD []) ++ str "\x7d"
    else
      escape_latex exp.company ++ str "\x7b: " ++
        escape_latex (exp.company_description.getD []) ++ str "\x7d"
  else
    if truthy exp.company_url then
      str "\\href\x7b" ++ exp.company_url.getD [] ++ str "\x7d\x7b" ++
        escape_latex exp.company ++ str "\x7d"
    else
      escape_latex exp.company

def achievementBlock (a : Achievement) : Str :=
  str "      \\resumeItem\x7b" ++ escape_latex a.name ++ str "\x7d\n      \x7b" ++
    translate_links a.description ++ str "\x7d\n"

def experienceBlock (exp : Experience) : Str :=
  str "  \\resumeSubheading\n  \x7b" ++ escape_latex exp.title ++ str "\x7d\x7b" ++
    exp.date_start ++ str " - " ++ exp.date_end ++ str "\x7d\n  \x7b" ++
    companyText exp ++ str "\x7d\x7b" ++ escape_latex exp.location ++ str "\x7d\n" ++
  (if exp.achievements.isEmpty then [] else
    str "    \\resumeItemListStart\n" ++
      (exp.achievements.map achievementBlock).flatten ++
      str "      \\resumeItemListEnd\n\n")

def format_experience (items : List Experience) : Str :=
  (items.map experienceBlock).flatten

/-! ## Education (`format_education`, lines 163 to 176) -/

def educationBlock (edu : Education) : Str :=
  str "    \\resumeSubheading\n      \x7b" ++ escape_latex edu.degree ++ str "\x7d\x7b" ++
    edu.date_start ++ str " -- " ++ edu.date_end ++ str "\x7d\n      \x7b" ++
    escape_latex edu.institution ++ str "\x7d\x7b" ++ escape_latex edu.location ++ str "\x7d\n"

def format_education (items : List Education) : Str :=
  (items.map educationBlock).flatten

/-! ## Awards (`format_awards`, lines 178 to 199) -/

/-- Embedding of Python `text.split(sep)` for a one-character separator. -/
def pySplit (sep : Char) : Str → List Str
  | [] => [[]]
  | c :: cs =>
    match pySplit sep cs with
    | [] => [[]]
    | h :: t => if c = sep then [] :: h :: t else (c :: h) :: t

/-- Python `list[-1]` on the never-empty result of `split`. -/
def lastPart (parts : List Str) : Str := parts.getLastD []

/-- The characters removed by Python `str.strip()` on ASCII text. -/
def isPySpace (c : Char) : Bool :=
  c = ' ' || c = '\t' || c = '\n' || c = '\r' || c = '\x0b' || c = '\x0c'

/-- Embedding of Python `text.strip()`. -/
def pyStrip (s : Str) : Str :=
  ((s.dropWhile isPySpace).reverse.dropWhile isPySpace).reverse

/-- The `organization_text` computed at lines 186 to 192. -/
def awardOrgText (award : Award) : Str :=
  let organization := escape_latex award.organization
  if truthy award.organization_detail then
    let org_detail := escape_latex (award.organization_detail.getD [])
    if truthy award.organization_url then
      organization ++ str " $\\vert$ \\href\x7b" ++ award.organization_url.getD [] ++
        str "\x7d\x7b" ++ pyStrip (lastPart (pySplit ':' org_detail)) ++ str "\x7d"
    else
      organization ++ str " $\\vert$ " ++ org_detail
  else organization

def awardBlock (award : Award) : Str :=
  str "    \\resumeSubheading\n      \x7b" ++ escape_latex award.title ++ str "\x7d\x7b" ++
    award.date ++ str "\x7d\n      \x7b" ++ awardOrgText award ++ str "\x7d\x7b" ++
    escape_latex award.location ++ str "\x7d\n"

def format_awards (items : List Award) : Str :=
  (items.map awardBlock).flatten

/-! ## Certifications (`format_certifications`, lines 201 to 213) -/

def certBlock (cert : Cert) : Str :=
  str "    \\resumeSubheading\n      \x7b" ++ escape_latex cert.title ++ str "\x7d\x7b" ++
    cert.date ++ str "\x7d\n      \x7b\\href\x7b" ++ cert.url ++
    str "\x7d\x7bCertificate\x7d\x7d\x7b" ++ escape_latex cert.organization ++ str "\x7d\n"

def format_certifications (items : List Cert) : Str :=
  (items.map certBlock).flatten

/-! ## Publications (`format_publications`, lines 215 to 230) -/

def pubBlock (pub : Pub) : Str :=
  let authors := replaceAll (str "M. Ghorbandoost") (str "\\textbf\x7bM. Ghorbandoost\x7d")
    (escape_latex pub.authors)
  str "  \\item\x7b" ++ authors ++ str ", \x60\x60" ++ escape_latex pub.title ++
    str "\x27\x27, " ++ escape_latex pub.venue ++ str ", " ++ pub.year ++
    str ". \\href\x7b" ++ pub.url ++ str "\x7d\x7blink\x7d\x7d\n"

/-- Embedding of the publications loop; the spacing directive is added
after an entry exactly when the entry compares unequal (by value) to the
final entry of the list, mirroring `if pub != pub_items[-1]` at line 227. -/
def format_publications (pubs : List Pub) : Str :=
  (pubs.map (fun pub =>
    pubBlock pub ++
      (if some pub ≠ pubs.getLast? then str "  \\vspace\x7b5pt\x7d\n" else []))).flatten

/-! ## The Template Filler (`generate_latex_resume`, lines 249 to 268) -/

structure ResumeData where
  name : Str
  phone : Str
  email : Str
  location : Str
  summary : Str
  links : List ContactLink
  skills : List Skill
  experience : List Experience
  education : List Education
  awards : List Award
  certifications : List Cert
  publications : List Pub

/-- The placeholder-substitution core of `generate_latex_resume`: the
twelve successive `replace` calls of lines 256 to 268 on the template
string. -/
def fillTemplate (template : Str) (data : ResumeData) : Str :=
  let contact_links := format_contact_links data.links
  let t := replaceAll (str "NAME") (escape_latex data.name) template
  let t := replaceAll (str "PHONE") (escape_latex data.phone) t
  let t := replaceAll (str "EMAIL") (escape_latex data.email) t
  let t := replaceAll (str "LOCATION") (escape_latex data.location) t
  let t := replaceAll (str "LINKS") contact_links t
  let t := replaceAll (str "SUMMARY") (escape_latex data.summary) t
  let t := replaceAll (str "SKILLS") (format_skills data.skills) t
  let t := replaceAll (str "EXPERIENCE") (format_experience data.experience) t
  let t := replaceAll (str "EDUCATION") (format_education data.education) t
  let t := replaceAll (str "AWARDS") (format_awards data.awards) t
  let t := replaceAll (str "CERTIFICATIONS") (format_certifications data.certifications) t
  let t := replaceAll (str "PUBLICATIONS") (format_publications data.publications) t
  t

/-! ## Analysis definitions

Auxiliary executable definitions used to state and prove properties of
the embedded program: occurrence predicates, and character-by-character
descriptions of the Escaper that the theorems below relate to the ten
`replace` calls of the source. -/

/-- `pat` occurs (contiguously) somewhere in `s`. -/
def containsSeq (pat s : Str) : Prop := ∃ u v, s = u ++ pat ++ v

/-- Boolean scanner deciding `containsSeq`. -/
def seqOccurs (pat : Str) : Str → Bool
  | [] => pat.isEmpty
  | c :: cs => pat.isPrefixOf (c :: cs) || seqOccurs pat cs

/-- Apply a character-to-text substitution to every character. -/
def charMap (h : Char → Str) : Str → Str
  | [] => []
  | c :: cs => h c ++ charMap h cs

/-- Joint effect of the two ampersand passes of the Escaper (lines 37
and 38 of the source): a bare ampersand receives one escaping backslash,
and an already escaped backslash-ampersand pair is kept as it is. -/
def ampNorm : Str → Str
  | [] => []
  | '&' :: cs => '\\' :: '&' :: ampNorm cs
  | '\\' :: '&' :: cs => '\\' :: '&' :: ampNorm cs
  | '\\' :: cs => '\\' :: ampNorm cs
  | c :: cs => c :: ampNorm cs

/-- The per-character form of the ampersand pass of line 37. -/
def hAmp (c : Char) : Str := if c = '&' then ['\\', '&'] else [c]

/-- The per-character form of the eight remaining `replace` calls of the
Escaper, in their source order. -/
def escH (c : Char) : Str :=
  if c = '%' then str "\\%"
  else if c = '$' then str "\\$"
  else if c = '#' then str "\\#"
  else if c = '_' then str "\\_"
  else if c = '\x7b' then str "\\\x7b"
  else if c = '\x7d' then str "\\\x7d"
  else if c = '~' then str "\\textasciitilde\x7b\x7d"
  else if c = '^' then str "\\textasciicircum\x7b\x7d"
  else [c]

/-- The reserved characters of the target markup language handled by
the Escaper. -/
def reservedChars : Str := str "&%$#_\x7b\x7d~^"

/-- Every character that any escape sequence of the Escaper can emit. -/
def repChars : Str := str "\\%$#_\x7b\x7dtexascildrum"

/-- The portion of a text after its last colon, the whole text when no
colon occurs: the spec-side description of the award-detail splitting. -/
def afterLastColon (s : Str) : Str :=
  (s.reverse.takeWhile (fun c => c ≠ ':')).reverse

/-- The company-display rule exactly as the spec words it, by the four
cases: both url and description present, only a description, only a url,
neither. -/
def companyTextSpec (exp : Experience) : Str :=
  if truthy exp.company_url ∧ truthy exp.company_description then
    str "\\href\x7b" ++ exp.company_url.getD [] ++ str "\x7d\x7b" ++
      escape_latex exp.company ++ str "\x7d\x7b: " ++
      escape_latex (exp.company_description.getD []) ++ str "\x7d"
  else if truthy exp.company_description then
    escape_latex exp.company ++ str "\x7b: " ++
      escape_latex (exp.company_description.getD []) ++ str "\x7d"
  else if truthy exp.company_url then
    str "\\href\x7b" ++ exp.company_url.getD [] ++ str "\x7d\x7b" ++
      escape_latex exp.company ++ str "\x7d"
  else escape_latex exp.company

/-- One skill block as the spec words the redundancy claim: the plain
Escaper applied to the raw category and items, with no extra ampersand
guards. -/
def skillBlockPlain (skill : Skill) : Str :=
  str "  \\resumeSubheading\n    \x7b" ++ escape_latex skill.category ++
    str "\x7d\x7b\x7d\n    \x7b" ++ escape_latex skill.items ++ str "\x7d\x7b\x7d\n"

/-- The skills formatter with the plain Escaper alone. -/
def format_skills_plain (skills : List Skill) : Str :=
  (skills.map skillBlockPlain).flatten

/-- State machine checking that every ampersand is immediately preceded
by a backslash; the flag records whether the previous character was a
backslash. -/
def ampOkAux (p : Bool) : Str → Bool
  | [] => true
  | c :: cs => ((c != '&') || p) && ampOkAux (c == '\\') cs

/-- State machine rejecting any ampersand preceded by three or more
consecutive backslashes (a triple-escaped ampersand); the counter tracks
the length of the current backslash run. -/
def noTripleAux (k : Nat) : Str → Bool
  | [] => true
  | c :: cs =>
    if c = '&' then decide (k ≤ 2) && noTripleAux 0 cs
    else noTripleAux (if c = '\\' then k + 1 else 0) cs

/-- The backslash-run counter after reading a block of text. -/
def tState (k : Nat) : Str → Nat
  | [] => k
  | c :: cs => tState (if c = '\\' then k + 1 else 0) cs

/-! ## Theorems: basic facts about `replaceAll` -/

theorem replaceAllAux_skip (pat rep : Str) :
    ∀ (k : Nat) (s : Str), replaceAllAux pat rep k s = replaceAll pat rep (s.drop k) := by
  intro k
  induction k with
  | zero => intro s; rfl
  | succ k ih =>
    intro s
    cases s with
    | nil => simp [replaceAllAux, replaceAll]
    | cons c cs => simpa [replaceAllAux] using ih cs

theorem replaceAll_nil (pat rep : Str) : replaceAll pat rep [] = [] := rfl

theorem replaceAll_cons_pos (pat rep : Str) (c : Char) (cs : Str)
    (h : pat.isPrefixOf (c :: cs) = true) (hne : pat ≠ []) :
    replaceAll pat rep (c :: cs) =
      rep ++ replaceAll pat rep ((c :: cs).drop pat.length) := by
  have hlen : (c :: cs).drop pat.length = cs.drop (pat.length - 1) := by
    cases hp : pat with
    | nil => exact absurd hp hne
    | cons p ps => simp
  rw [replaceAll, replaceAllAux, if_pos ⟨h, hne⟩, replaceAllAux_skip, hlen]

theorem replaceAll_cons_neg (pat rep : Str) (c : Char) (cs : Str)
    (h : ¬ (pat.isPrefixOf (c :: cs) = true ∧ pat ≠ [])) :
    replaceAll pat rep (c :: cs) = c :: replaceAll pat rep cs := by
  rw [replaceAll, replaceAllAux, if_neg h]
  rfl

theorem isPrefixOf_iff (pat s : Str) :
    pat.isPrefixOf s = true ↔ ∃ r, s = pat ++ r := by
  induction pat generalizing s with
  | nil => simp [List.isPrefixOf]
  | cons p ps ih =>
    cases s with
    | nil => simp [List.isPrefixOf]
    | cons c cs =>
      simp only [List.isPrefixOf, Bool.and_eq_true, beq_iff_eq, ih, List.cons_append]
      constructor
      · rintro ⟨hpc, r, hr⟩
        exact ⟨r, by rw [hpc, hr]⟩
      · rintro ⟨r, hr⟩
        injection hr with h1 h2
        exact ⟨h1.symm, r, h2⟩

theorem seqOccurs_iff (pat s : Str) : seqOccurs pat s = true ↔ containsSeq pat s := by
  induction s with
  | nil =>
    simp only [seqOccurs, List.isEmpty_iff, containsSeq]
    constructor
    · rintro rfl
      exact ⟨[], [], rfl⟩
    · rintro ⟨u, v, huv⟩
      rcases List.append_eq_nil.mp huv.symm with ⟨h1, h2⟩
      exact (List.append_eq_nil.mp h1).2
  | cons c cs ih =>
    simp only [seqOccurs, Bool.or_eq_true, isPrefixOf_iff, ih, containsSeq]
    constructor
    · rintro (⟨r, hr⟩ | ⟨u, v, huv⟩)
      · exact ⟨[], r, by simpa using hr⟩
      · exact ⟨c :: u, v, by simp [huv]⟩
    · rintro ⟨u, v, huv⟩
      cases u with
      | nil => exact Or.inl ⟨v, by simpa using huv⟩
      | cons d u' =>
        simp only [List.cons_append] at huv
        injection huv with h1 h2
        exact Or.inr ⟨u', v, h2⟩

theorem containsSeq_mem (pat s : Str) (c : Char) (h : containsSeq pat s) (hc : c ∈ pat) :
    c ∈ s := by
  obtain ⟨u, v, rfl⟩ := h
  simp only [List.mem_append]
  exact Or.inl (Or.inr hc)

theorem containsSeq_cons (pat : Str) (c : Char) (cs : Str) (h : containsSeq pat cs) :
    containsSeq pat (c :: cs) := by
  obtain ⟨u, v, rfl⟩ := h
  exact ⟨c :: u, v, by simp⟩

/-- Two decompositions of one list: the shorter prefix extends to the longer. -/
theorem eq_append_extend (p q p' q' : Str) (h : p ++ p' = q ++ q')
    (hle : p.length ≤ q.length) : ∃ m, q = p ++ m := by
  induction p generalizing q with
  | nil => exact ⟨q, rfl⟩
  | cons a p ih =>
    cases q with
    | nil => simp at hle
    | cons b q =>
      simp only [List.cons_append] at h
      injection h with h1 h2
      obtain ⟨m, hm⟩ := ih q h2 (by simpa using hle)
      exact ⟨m, by rw [← h1, hm]; rfl⟩

/-- A pattern whose head is absent from `x` and which is longer than `y`
occurs nowhere in `x ++ y`. -/
theorem not_contains_append_short (a : Char) (pt x y : Str) (hax : a ∉ x)
    (hy : y.length < (a :: pt).length) : ¬ containsSeq (a :: pt) (x ++ y) := by
  induction x with
  | nil =>
    rintro ⟨u, v, huv⟩
    have hl := congrArg List.length huv
    simp only [List.nil_append, List.length_append, List.length_cons] at hl hy
    omega
  | cons c x ih =>
    rintro ⟨u, v, huv⟩
    cases u with
    | nil =>
      simp only [List.nil_append, List.cons_append] at huv
      injection huv with h1 h2
      exact hax (by rw [h1]; exact List.mem_cons_self a x)
    | cons d u' =>
      simp only [List.cons_append] at huv
      injection huv with h1 h2
      exact ih (fun hm => hax (List.mem_cons_of_mem _ hm)) ⟨u', v, h2⟩

/-- `replace` is the identity when the pattern occurs nowhere. -/
theorem replaceAll_of_not_contains (pat rep s : Str) (h : ¬ containsSeq pat s) :
    replaceAll pat rep s = s := by
  induction s with
  | nil => rfl
  | cons c cs ih =>
    rw [replaceAll_cons_neg]
    · rw [ih (fun hcs => h (containsSeq_cons pat c cs hcs))]
    · rintro ⟨hpre, hne⟩
      obtain ⟨r, hr⟩ := (isPrefixOf_iff _ _).mp hpre
      exact h ⟨[], r, by simpa using hr⟩

theorem dropLast_append_ne (x y : Str) (hy : y ≠ []) :
    (x ++ y).dropLast = x ++ y.dropLast := by
  induction x with
  | nil => rfl
  | cons c x ih =>
    cases hx : x ++ y with
    | nil => exact absurd (List.append_eq_nil.mp hx).2 hy
    | cons d l =>
      calc ((c :: x) ++ y).dropLast = (c :: (x ++ y)).dropLast := by rw [List.cons_append]
        _ = c :: (x ++ y).dropLast := by rw [hx, List.dropLast_cons₂, ← hx]
        _ = c :: (x ++ y.dropLast) := by rw [ih]
        _ = (c :: x) ++ y.dropLast := rfl

/-- `replace` on a string decomposed around one pattern occurrence:
provided no occurrence starts inside the leading part, the scan copies
the leading part, replaces the occurrence, and continues on the rest. -/
theorem replaceAll_append_occur (pat rep a rest : Str) (hne : pat ≠ [])
    (ha : ¬ containsSeq pat (a ++ pat.dropLast)) :
    replaceAll pat rep (a ++ pat ++ rest) = a ++ rep ++ replaceAll pat rep rest := by
  induction a with
  | nil =>
    cases hp : pat with
    | nil => exact absurd hp hne
    | cons p ps =>
      rw [List.nil_append, List.nil_append, ← hp]
      have hpre : pat.isPrefixOf (pat ++ rest) = true :=
        (isPrefixOf_iff _ _).mpr ⟨rest, rfl⟩
      cases hq : pat ++ rest with
      | nil => exact absurd (List.append_eq_nil.mp hq).1 hne
      | cons q qs =>
        rw [← hq, hq, replaceAll_cons_pos pat rep q qs (hq ▸ hpre) hne, ← hq,
          List.drop_left]
  | cons c a ih =>
    have hside : ¬ (pat.isPrefixOf (c :: (a ++ pat ++ rest)) = true ∧ pat ≠ []) := by
      rintro ⟨hpre, -⟩
      obtain ⟨r, hr⟩ := (isPrefixOf_iff _ _).mp hpre
      have hext : ∃ m, (c :: a) ++ pat = pat ++ m := by
        apply eq_append_extend pat ((c :: a) ++ pat) r rest
        · rw [← hr]; simp
        · simp only [List.length_append, List.length_cons]; omega
      obtain ⟨m, hm⟩ := hext
      have hmne : m ≠ [] := by
        intro hmnil
        have hl := congrArg List.length hm
        simp [hmnil] at hl
        omega
      have hdrop : (c :: a) ++ pat.dropLast = pat ++ m.dropLast := by
        have h1 := congrArg List.dropLast hm
        rwa [dropLast_append_ne _ _ hne, dropLast_append_ne _ _ hmne] at h1
      exact ha ⟨[], m.dropLast, by simpa using hdrop⟩
    have hrec : ¬ containsSeq pat (a ++ pat.dropLast) := by
      intro hcs
      exact ha (by simpa using containsSeq_cons pat c _ hcs)
    calc replaceAll pat rep ((c :: a) ++ pat ++ rest)
        = c :: replaceAll pat rep (a ++ pat ++ rest) := by
          rw [show (c :: a) ++ pat ++ rest = c :: (a ++ pat ++ rest) by simp,
            replaceAll_cons_neg pat rep _ _ hside]
      _ = c :: (a ++ rep ++ replaceAll pat rep rest) := by rw [ih hrec]
      _ = (c :: a) ++ rep ++ replaceAll pat rep rest := by simp

theorem not_contains_dropLast (pat : Str) (hne : pat ≠ []) :
    ¬ containsSeq pat pat.dropLast := by
  cases pat with
  | nil => exact absurd rfl hne
  | cons p pt =>
    simpa using not_contains_append_short p pt [] (p :: pt).dropLast (by simp)
      (by simp [List.length_dropLast])

/-- `replace` on a string starting with its own pattern. -/
theorem replaceAll_self_prefix (pat rep rest : Str) (hne : pat ≠ []) :
    replaceAll pat rep (pat ++ rest) = rep ++ replaceAll pat rep rest := by
  have h := replaceAll_append_occur pat rep [] rest hne
    (by simpa using not_contains_dropLast pat hne)
  simpa using h

theorem replaceAll_head_ne (p : Char) (pt rep : Str) (c : Char) (cs : Str) (h : c ≠ p) :
    replaceAll (p :: pt) rep (c :: cs) = c :: replaceAll (p :: pt) rep cs := by
  rw [replaceAll_cons_neg]
  rintro ⟨hpre, -⟩
  obtain ⟨r, hr⟩ := (isPrefixOf_iff _ _).mp hpre
  simp only [List.cons_append] at hr
  injection hr with h1 h2
  exact h h1

theorem replaceAll_second_ne (p q : Char) (pt rep : Str) (d : Char) (cs : Str) (hd : d ≠ q) :
    replaceAll (p :: q :: pt) rep (p :: d :: cs) = p :: replaceAll (p :: q :: pt) rep (d :: cs) := by
  rw [replaceAll_cons_neg]
  rintro ⟨hpre, -⟩
  obtain ⟨r, hr⟩ := (isPrefixOf_iff _ _).mp hpre
  simp only [List.cons_append] at hr
  injection hr with h1 h2
  injection h2 with h3 h4
  exact hd h3

/-! ## A character-by-character description of the Escaper

`escape_latex` is a chain of ten `replace` calls; the first two (the
ampersand pass and the double-escape fix) compose to the two-character
window scan `ampNorm`, and the remaining eight are per-character
substitutions collected in `escH`.  `escape_char` below proves
`escape_latex s = charMap escH (ampNorm s)`, the workhorse for every
property of the Escaper. -/

theorem charMap_append (h : Char → Str) (x y : Str) :
    charMap h (x ++ y) = charMap h x ++ charMap h y := by
  induction x with
  | nil => rfl
  | cons c cs ih => simp [charMap, ih]

theorem charMap_charMap (g h : Char → Str) (s : Str) :
    charMap g (charMap h s) = charMap (fun c => charMap g (h c)) s := by
  induction s with
  | nil => rfl
  | cons c cs ih => simp [charMap, charMap_append, ih]

theorem charMap_congr (g h : Char → Str) (s : Str) (hgh : ∀ c, g c = h c) :
    charMap g s = charMap h s := by
  induction s with
  | nil => rfl
  | cons c cs ih => simp [charMap, hgh c, ih]

/-- A single-character `replace` is a per-character substitution. -/
theorem replaceAll_singleton (a : Char) (rep : Str) (s : Str) :
    replaceAll [a] rep s = charMap (fun c => if c = a then rep else [c]) s := by
  induction s with
  | nil => rfl
  | cons c cs ih =>
    by_cases h : c = a
    · subst h
      have hstep := replaceAll_self_prefix [c] rep cs (by simp)
      simp only [List.cons_append, List.nil_append] at hstep
      simp [charMap, hstep, ih]
    · rw [replaceAll_head_ne a [] rep c cs h]
      simp [charMap, if_neg h, ih]

theorem hAmp_head_ne (l T : Str) : charMap hAmp l ≠ '&' :: T := by
  cases l with
  | nil => simp [charMap]
  | cons c cs =>
    by_cases h : c = '&'
    · subst h
      simp only [charMap, hAmp, if_pos rfl, List.cons_append, List.nil_append]
      intro heq
      injection heq with h1 h2
      exact absurd h1 (by decide)
    · simp only [charMap, hAmp, if_neg h, List.cons_append, List.nil_append]
      intro heq
      injection heq with h1 h2
      exact h h1

theorem hAmp_not_bsamp (cs T : Str) (h : ∀ cs1 : Str, cs ≠ '&' :: cs1) :
    charMap hAmp cs ≠ '\\' :: '&' :: T := by
  cases cs with
  | nil => simp [charMap]
  | cons c cs' =>
    by_cases hc : c = '&'
    · subst hc
      exact absurd rfl (h cs')
    · simp only [charMap, hAmp, if_neg hc, List.cons_append, List.nil_append]
      intro heq
      injection heq with h1 h2
      exact hAmp_head_ne cs' T h2

/-- The first two `replace` calls of the Escaper compute `ampNorm`. -/
theorem ampNorm_spec (s : Str) :
    replaceAll ['\\', '\\', '&'] (str "\\&")
      (replaceAll ['&'] (str "\\&") s) = ampNorm s := by
  have hpre : replaceAll ['&'] (str "\\&") s = charMap hAmp s :=
    replaceAll_singleton '&' (str "\\&") s
  rw [hpre]
  clear hpre
  induction s using ampNorm.induct with
  | case1 => rfl
  | case2 cs ih =>
    have hm : charMap hAmp ('&' :: cs) = '\\' :: '&' :: charMap hAmp cs := by
      simp [charMap, hAmp]
    rw [hm, replaceAll_second_ne '\\' '\\' ['&'] (str "\\&") '&' (charMap hAmp cs) (by decide),
      replaceAll_head_ne '\\' ['\\', '&'] (str "\\&") '&' (charMap hAmp cs) (by decide),
      ih, ampNorm.eq_2]
  | case3 cs ih =>
    have hm : charMap hAmp ('\\' :: '&' :: cs) =
        ['\\', '\\', '&'] ++ charMap hAmp cs := by
      simp [charMap, hAmp]
    rw [hm, replaceAll_self_prefix ['\\', '\\', '&'] (str "\\&") (charMap hAmp cs) (by simp),
      ih, ampNorm.eq_3]
    rfl
  | case4 cs hcs ih =>
    have hm : charMap hAmp ('\\' :: cs) = '\\' :: charMap hAmp cs := by
      simp [charMap, hAmp]
    have hside : ¬ (List.isPrefixOf ['\\', '\\', '&'] ('\\' :: charMap hAmp cs) = true ∧
        (['\\', '\\', '&'] : Str) ≠ []) := by
      rintro ⟨hpre2, -⟩
      obtain ⟨r, hr⟩ := (isPrefixOf_iff _ _).mp hpre2
      simp only [List.cons_append] at hr
      injection hr with h1 h2
      exact hAmp_not_bsamp cs r (fun cs1 hcs1 => hcs cs1 hcs1) h2
    rw [hm, replaceAll_cons_neg _ _ _ _ hside, ih, ampNorm.eq_4 cs hcs]
  | case5 c cs hc1 hc2 hc3 ih =>
    have hm : charMap hAmp (c :: cs) = c :: charMap hAmp cs := by
      simp [charMap, hAmp, if_neg (fun h => hc1 h)]
    rw [hm, replaceAll_head_ne '\\' ['\\', '&'] (str "\\&") c (charMap hAmp cs)
      (fun h => hc3 h), ih, ampNorm.eq_5 c cs hc1 hc2 hc3]

/-- The Escaper, characterised: normalise ampersands with the
two-character scan `ampNorm`, then substitute per character with `escH`. -/
theorem escape_char (s : Str) : escape_latex s = charMap escH (ampNorm s) := by
  show replaceAll ['^'] (str "\\textasciicircum\x7b\x7d")
      (replaceAll ['~'] (str "\\textasciitilde\x7b\x7d")
        (replaceAll ['\x7d'] (str "\\\x7d")
          (replaceAll ['\x7b'] (str "\\\x7b")
            (replaceAll ['_'] (str "\\_")
              (replaceAll ['#'] (str "\\#")
                (replaceAll ['$'] (str "\\$")
                  (replaceAll ['%'] (str "\\%")
                    (replaceAll ['\\', '\\', '&'] (str "\\&")
                      (replaceAll ['&'] (str "\\&") s))))))))) =
      charMap escH (ampNorm s)
  rw [ampNorm_spec s]
  rw [replaceAll_singleton '%', replaceAll_singleton '$', replaceAll_singleton '#',
    replaceAll_singleton '_', replaceAll_singleton '\x7b', replaceAll_singleton '\x7d',
    replaceAll_singleton '~', replaceAll_singleton '^']
  rw [charMap_charMap, charMap_charMap, charMap_charMap, charMap_charMap,
    charMap_charMap, charMap_charMap, charMap_charMap]
  refine charMap_congr _ escH (ampNorm s) (fun c => ?_)
  by_cases h1 : c = '%'
  · subst h1; decide
  by_cases h2 : c = '$'
  · subst h2; decide
  by_cases h3 : c = '#'
  · subst h3; decide
  by_cases h4 : c = '_'
  · subst h4; decide
  by_cases h5 : c = '\x7b'
  · subst h5; decide
  by_cases h6 : c = '\x7d'
  · subst h6; decide
  by_cases h7 : c = '~'
  · subst h7; decide
  by_cases h8 : c = '^'
  · subst h8; decide
  simp [charMap, escH, if_neg h1, if_neg h2, if_neg h3, if_neg h4, if_neg h5,
    if_neg h6, if_neg h7, if_neg h8]

/-! ## Identity of the Escaper away from reserved characters -/

theorem ampNorm_id (s : Str) (h : '&' ∉ s) : ampNorm s = s := by
  induction s using ampNorm.induct with
  | case1 => rfl
  | case2 cs ih => exact absurd (List.mem_cons_self '&' cs) h
  | case3 cs ih => exact absurd (List.mem_cons_of_mem _ (List.mem_cons_self '&' cs)) h
  | case4 cs hcs ih =>
    rw [ampNorm.eq_4 cs hcs, ih (fun hm => h (List.mem_cons_of_mem _ hm))]
  | case5 c cs hc1 hc2 hc3 ih =>
    rw [ampNorm.eq_5 c cs hc1 hc2 hc3, ih (fun hm => h (List.mem_cons_of_mem _ hm))]

theorem charMap_id_of (h : Char → Str) (s : Str) (hh : ∀ c ∈ s, h c = [c]) :
    charMap h s = s := by
  induction s with
  | nil => rfl
  | cons c cs ih =>
    simp [charMap, hh c (List.mem_cons_self c cs),
      ih (fun d hd => hh d (List.mem_cons_of_mem c hd))]

theorem escH_id (c : Char) (h : c ∉ reservedChars) : escH c = [c] := by
  have h1 : c ≠ '%' := fun he => h (by rw [he]; decide)
  have h2 : c ≠ '$' := fun he => h (by rw [he]; decide)
  have h3 : c ≠ '#' := fun he => h (by rw [he]; decide)
  have h4 : c ≠ '_' := fun he => h (by rw [he]; decide)
  have h5 : c ≠ '\x7b' := fun he => h (by rw [he]; decide)
  have h6 : c ≠ '\x7d' := fun he => h (by rw [he]; decide)
  have h7 : c ≠ '~' := fun he => h (by rw [he]; decide)
  have h8 : c ≠ '^' := fun he => h (by rw [he]; decide)
  simp [escH, if_neg h1, if_neg h2, if_neg h3, if_neg h4, if_neg h5, if_neg h6,
    if_neg h7, if_neg h8]

theorem escape_id_of_no_reserved (s : Str) (h : ∀ c ∈ s, c ∉ reservedChars) :
    escape_latex s = s := by
  rw [escape_char, ampNorm_id s (fun hm => h '&' hm (by decide)),
    charMap_id_of escH s (fun c hc => escH_id c (h c hc))]

/-! ## Claim C8 -/

/-- Claim C8: for every input text containing none of the reserved
characters (ampersand, percent, dollar, hash, underscore, open brace,
close brace, tilde, caret), `escape_latex` is the identity. -/
theorem claim8_escape_identity (s : Str) (h : ∀ c ∈ s, c ∉ reservedChars) :
    escape_latex s = s :=
  escape_id_of_no_reserved s h

/-- Witness for C8 at a concrete reserved-character-free input. -/
theorem claim8_witness :
    (∀ c ∈ str "hello world!", c ∉ reservedChars) ∧
      escape_latex (str "hello world!") = str "hello world!" :=
  ⟨by decide, claim8_escape_identity (str "hello world!") (by decide)⟩

/-! ## Claim C1 -/

/-- Counterexample to C1 as stated: with template `NAME NAME` and name
`X` the Template Filler rewrites both occurrences of the token, so the
second occurrence is not left unchanged (the claim predicts `X NAME`). -/
theorem claim1_counterexample :
    fillTemplate (str "NAME NAME")
        ⟨str "X", str "P", str "E", str "L", str "S", [], [], [], [], [], [], []⟩ =
      str "X X" ∧ str "X X" ≠ str "X NAME" := by
  decide

/-- Claim C1 (amended): each placeholder substitution of the Template
Filler replaces every non-overlapping occurrence of the token, scanning
left to right — a template containing the token twice gets both
occurrences replaced — and a token absent from the template makes the
substitution a no-op, not an error.  Stated about `replaceAll`, the
substitution primitive the Filler applies once per token. -/
theorem claim1_replaces_every_occurrence :
    (∀ tok rep s : Str, ¬ containsSeq tok s → replaceAll tok rep s = s) ∧
    (∀ tok rep a b c : Str, tok ≠ [] →
      ¬ containsSeq tok (a ++ tok.dropLast) →
      ¬ containsSeq tok (b ++ tok.dropLast) →
      ¬ containsSeq tok c →
      replaceAll tok rep (a ++ tok ++ b ++ tok ++ c) = a ++ rep ++ b ++ rep ++ c) := by
  constructor
  · exact fun tok rep s h => replaceAll_of_not_contains tok rep s h
  · intro tok rep a b c hne ha hb hc
    have hshape : a ++ tok ++ b ++ tok ++ c = a ++ tok ++ (b ++ tok ++ c) := by
      simp [List.append_assoc]
    rw [hshape, replaceAll_append_occur tok rep a (b ++ tok ++ c) hne ha,
      replaceAll_append_occur tok rep b c hne hb,
      replaceAll_of_not_contains tok rep c hc]
    simp [List.append_assoc]

/-- Witness for (the amended) C1 at concrete inputs: both occurrences of
`NAME` are substituted, and a token-free string is left unchanged. -/
theorem claim1_witness :
    replaceAll (str "NAME") (str "Ada") (str "x NAME y NAME z") = str "x Ada y Ada z" ∧
      replaceAll (str "PHONE") (str "7") (str "x Ada y Ada z") = str "x Ada y Ada z" := by
  constructor
  · have h := claim1_replaces_every_occurrence.2 (str "NAME") (str "Ada")
      (str "x ") (str " y ") (str " z") (by decide)
      (fun hcs => absurd ((seqOccurs_iff _ _).mpr hcs) (by decide))
      (fun hcs => absurd ((seqOccurs_iff _ _).mpr hcs) (by decide))
      (fun hcs => absurd ((seqOccurs_iff _ _).mpr hcs) (by decide))
    have hs : str "x NAME y NAME z" =
        str "x " ++ str "NAME" ++ str " y " ++ str "NAME" ++ str " z" := by decide
    have ho : str "x " ++ str "Ada" ++ str " y " ++ str "Ada" ++ str " z" =
        str "x Ada y Ada z" := by decide
    rw [hs, h, ho]
  · exact claim1_replaces_every_occurrence.1 (str "PHONE") (str "7") (str "x Ada y Ada z")
      (fun hcs => absurd ((seqOccurs_iff _ _).mpr hcs) (by decide))

/-! ## Claim C4 -/

/-- Claim C4 exhibits a code bug: with two field-identical publication
records the inter-item spacing directive is omitted after the first
(non-last) entry, because the loop compares records by value
(`pub != pub_items[-1]`) instead of by position; two distinct records do
receive the directive. -/
theorem claim4_duplicate_drops_spacing :
    (¬ containsSeq (str "  \\vspace\x7b5pt\x7d\n")
        (format_publications
          [⟨str "A", str "T", str "V", str "2020", str "u"⟩,
           ⟨str "A", str "T", str "V", str "2020", str "u"⟩])) ∧
    containsSeq (str "  \\vspace\x7b5pt\x7d\n")
        (format_publications
          [⟨str "A", str "T", str "V", str "2020", str "u"⟩,
           ⟨str "B", str "T", str "V", str "2020", str "u"⟩]) := by
  constructor
  · intro h
    exact absurd ((seqOccurs_iff _ _).mpr h) (by decide)
  · exact (seqOccurs_iff _ _).mp (by decide)

/-! ## Claim C2: the award-detail split -/

theorem takeWhile_append_all (p : Char → Bool) (x y : Str) (h : ∀ c ∈ x, p c = true) :
    (x ++ y).takeWhile p = x ++ y.takeWhile p := by
  induction x with
  | nil => rfl
  | cons c cs ih =>
    simp only [List.cons_append, List.takeWhile_cons, h c (List.mem_cons_self c cs)]
    rw [ih (fun d hd => h d (List.mem_cons_of_mem c hd))]
    simp

theorem takeWhile_append_stop (p : Char → Bool) (x y : Str) (h : ∃ c ∈ x, p c = false) :
    (x ++ y).takeWhile p = x.takeWhile p := by
  induction x with
  | nil => obtain ⟨c, hc, -⟩ := h; exact absurd hc (List.not_mem_nil c)
  | cons c cs ih =>
    by_cases hp : p c = true
    · simp only [List.cons_append, List.takeWhile_cons, hp]
      obtain ⟨d, hd, hdp⟩ := h
      rcases List.mem_cons.mp hd with rfl | hd'
      · rw [hp] at hdp; exact absurd hdp (by simp)
      · rw [ih ⟨d, hd', hdp⟩]
    · have hp' : p c = false := by
        cases hpc : p c
        · rfl
        · exact absurd hpc hp
      simp only [List.cons_append, List.takeWhile_cons, hp']
      simp

theorem pySplit_ne_nil (sep : Char) (s : Str) : pySplit sep s ≠ [] := by
  cases s with
  | nil => simp [pySplit]
  | cons c cs =>
    simp only [pySplit]
    cases pySplit sep cs with
    | nil => simp
    | cons h t =>
      by_cases hc : c = sep <;> simp [hc]

theorem pySplit_no_sep (sep : Char) (s : Str) (h : sep ∉ s) : pySplit sep s = [s] := by
  induction s with
  | nil => rfl
  | cons c cs ih =>
    have hc : c ≠ sep := fun he => h (he ▸ List.mem_cons_self c cs)
    simp only [pySplit, ih (fun hm => h (List.mem_cons_of_mem c hm)), if_neg hc]

theorem pySplit_sep_mem (sep : Char) (s : Str) (h : sep ∈ s) :
    2 ≤ (pySplit sep s).length := by
  induction s with
  | nil => exact absurd h (List.not_mem_nil sep)
  | cons c cs ih =>
    by_cases hc : c = sep
    · subst hc
      simp only [pySplit]
      cases hsp : pySplit c cs with
      | nil => exact absurd hsp (pySplit_ne_nil c cs)
      | cons hd t => simp
    · have hcs : sep ∈ cs := by
        rcases List.mem_cons.mp h with he | hm
        · exact absurd he.symm hc
        · exact hm
      have h2 := ih hcs
      simp only [pySplit]
      cases hsp : pySplit sep cs with
      | nil => exact absurd hsp (pySplit_ne_nil sep cs)
      | cons hd t =>
        rw [hsp] at h2
        simp only [if_neg hc]
        simpa using h2

theorem getLastD_irrel (l : List Str) (d d' : Str) (h : l ≠ []) :
    l.getLastD d = l.getLastD d' := by
  cases l with
  | nil => exact absurd rfl h
  | cons a t =>
    rw [List.getLastD_eq_getLast?, List.getLastD_eq_getLast?,
      List.getLast?_eq_getLast (a :: t) (by simp)]
    rfl

theorem afterLastColon_no_colon (sep : Char) (s : Str) (h : sep ∉ s) :
    (s.reverse.takeWhile (fun c => c ≠ sep)).reverse = s := by
  have hall : ∀ c ∈ s.reverse, (fun c => decide (c ≠ sep)) c = true := by
    intro c hc
    simp only [decide_eq_true_iff]
    exact fun he => h (he ▸ (List.mem_reverse.mp hc))
  rw [List.takeWhile_eq_self_iff.mpr hall, List.reverse_reverse]

/-- Python `split(sep)[-1]` computes the portion after the last
separator. -/
theorem lastPart_pySplit (sep : Char) (s : Str) :
    lastPart (pySplit sep s) = (s.reverse.takeWhile (fun c => c ≠ sep)).reverse := by
  induction s with
  | nil => rfl
  | cons c cs ih =>
    by_cases hc : c = sep
    · subst hc
      have hsplit : ∃ hd t, pySplit c cs = hd :: t := by
        cases hsp : pySplit c cs with
        | nil => exact absurd hsp (pySplit_ne_nil c cs)
        | cons hd t => exact ⟨hd, t, rfl⟩
      obtain ⟨hd, t, hsp⟩ := hsplit
      have hl : lastPart (pySplit c (c :: cs)) = lastPart (pySplit c cs) := by
        simp only [pySplit, hsp, if_pos rfl, lastPart, List.getLastD_cons,
          List.getLastD_eq_getLast?, List.getLast?_cons_cons, if_true]
      rw [hl, ih]
      by_cases hmem : c ∈ cs
      · have hstop : ∃ d ∈ cs.reverse, (fun x => decide (x ≠ c)) d = false :=
          ⟨c, List.mem_reverse.mpr hmem, by simp⟩
        rw [show (c :: cs).reverse = cs.reverse ++ [c] by simp,
          takeWhile_append_stop _ _ _ hstop]
      · have hall : ∀ d ∈ cs.reverse, (fun x => decide (x ≠ c)) d = true := by
          intro d hd
          simp only [decide_eq_true_iff]
          exact fun he => hmem (he ▸ (List.mem_reverse.mp hd))
        rw [afterLastColon_no_colon c cs hmem,
          show (c :: cs).reverse = cs.reverse ++ [c] by simp,
          takeWhile_append_all _ _ _ hall]
        simp
    · by_cases hmem : c = sep ∨ sep ∈ cs
      case neg =>
        push_neg at hmem
        have hnot : sep ∉ c :: cs := by
          intro hm
          rcases List.mem_cons.mp hm with he | hm'
          · exact hmem.1 he.symm
          · exact hmem.2 hm'
        rw [pySplit_no_sep sep _ hnot, afterLastColon_no_colon sep _ hnot]
        rfl
      case pos =>
        have hcs : sep ∈ cs := by
          rcases hmem with he | hm
          · exact absurd he hc
          · exact hm
        have h2 := pySplit_sep_mem sep cs hcs
        have hsplit : ∃ hd t, pySplit sep cs = hd :: t := by
          cases hsp : pySplit sep cs with
          | nil => exact absurd hsp (pySplit_ne_nil sep cs)
          | cons hd t => exact ⟨hd, t, rfl⟩
        obtain ⟨hd, t, hsp⟩ := hsplit
        have htne : t ≠ [] := by
          rw [hsp] at h2
          intro ht
          rw [ht] at h2
          simp at h2
        have hl : lastPart (pySplit sep (c :: cs)) = lastPart (pySplit sep cs) := by
          simp only [pySplit, hsp, if_neg hc, lastPart, List.getLastD_cons]
          exact getLastD_irrel t (c :: hd) hd htne
        rw [hl, ih,
          show (c :: cs).reverse = cs.reverse ++ [c] by simp,
          takeWhile_append_stop _ _ _ ⟨sep, List.mem_reverse.mpr hcs, by simp⟩]

/-- Counterexample to C2 as stated: detail `A: B: C` with a url yields a
hyperlink wrapping only `C` (the portion after the LAST colon), where
the claim predicts `B: C` (after the first colon). -/
theorem claim2_counterexample :
    awardOrgText ⟨str "T", str "O", str "L", str "D",
        some (str "A: B: C"), some (str "u")⟩ =
      str "O $\\vert$ \\href\x7bu\x7d\x7bC\x7d" ∧
    str "O $\\vert$ \\href\x7bu\x7d\x7bC\x7d" ≠
      str "O $\\vert$ \\href\x7bu\x7d\x7bB: C\x7d" := by
  decide

/-- Claim C2 (amended): for every award record having a non-empty
organization_detail and a non-empty organization_url, the formatted
organization text is the escaped organization joined by the vertical-bar
separator to a hyperlink (using organization_url) whose display text is
the portion of the escaped organization_detail after the LAST colon,
trimmed of surrounding whitespace. -/
theorem claim2_award_detail_link (t o l dt : Str) (d0 : Char) (ds : Str)
    (u0 : Char) (us : Str) :
    awardOrgText ⟨t, o, l, dt, some (d0 :: ds), some (u0 :: us)⟩ =
      escape_latex o ++ str " $\\vert$ \\href\x7b" ++ (u0 :: us) ++ str "\x7d\x7b" ++
        pyStrip (afterLastColon (escape_latex (d0 :: ds))) ++ str "\x7d" := by
  simp only [awardOrgText, truthy, List.isEmpty_cons, Bool.not_false, if_true,
    Option.getD_some]
  rw [show lastPart (pySplit ':' (escape_latex (d0 :: ds))) =
      afterLastColon (escape_latex (d0 :: ds)) from lastPart_pySplit ':' _]

/-! ## Claim C6 -/

/-- Claim C6: the company-display string follows exactly the four-case
rule of the spec — hyperlinked name plus escaped description suffix when
both url and description are present and non-empty, name plus suffix
without a link when only the description is, a hyperlinked name without
a suffix when only the url is, and the plain escaped name otherwise. -/
theorem claim6_company_four_cases (exp : Experience) :
    companyText exp = companyTextSpec exp := by
  by_cases hd : truthy exp.company_description = true
  · by_cases hu : truthy exp.company_url = true
    · simp [companyText, companyTextSpec, hd, hu]
    · simp [companyText, companyTextSpec, hd, hu]
  · by_cases hu : truthy exp.company_url = true
    · simp [companyText, companyTextSpec, hd, hu]
    · simp [companyText, companyTextSpec, hd, hu]

/-! ## Claim C10 -/

/-- Claim C10: in every section formatter that emits a hyperlink, the
record's url field is inserted verbatim as the first brace argument of
the hyperlink command and never passes through the Escaper (only names,
details and other display texts are escaped). -/
theorem claim10_urls_verbatim :
    (∀ n u : Str, format_contact_links [⟨n, u⟩] =
        str "\\href\x7b" ++ u ++ str "\x7d\x7b" ++ escape_latex n ++ str "\x7d") ∧
    (∀ (ti lo co d1 d2 : Str) (u0 : Char) (us : Str),
      companyText ⟨ti, lo, co, some (u0 :: us), none, d1, d2, []⟩ =
        str "\\href\x7b" ++ (u0 :: us) ++ str "\x7d\x7b" ++ escape_latex co ++ str "\x7d") ∧
    (∀ (t o l dt : Str) (d0 u0 : Char) (ds us : Str),
      awardOrgText ⟨t, o, l, dt, some (d0 :: ds), some (u0 :: us)⟩ =
        escape_latex o ++ str " $\\vert$ \\href\x7b" ++ (u0 :: us) ++ str "\x7d\x7b" ++
          pyStrip (lastPart (pySplit ':' (escape_latex (d0 :: ds)))) ++ str "\x7d") ∧
    (∀ t o dt u : Str, certBlock ⟨t, o, dt, u⟩ =
        str "    \\resumeSubheading\n      \x7b" ++ escape_latex t ++ str "\x7d\x7b" ++
          dt ++ str "\x7d\n      \x7b\\href\x7b" ++ u ++ str "\x7d\x7bCertificate\x7d\x7d\x7b" ++
          escape_latex o ++ str "\x7d\n") ∧
    (∀ au t v y u : Str, pubBlock ⟨au, t, v, y, u⟩ =
        str "  \\item\x7b" ++
          replaceAll (str "M. Ghorbandoost") (str "\\textbf\x7bM. Ghorbandoost\x7d")
            (escape_latex au) ++
          str ", \x60\x60" ++ escape_latex t ++ str "\x27\x27, " ++ escape_latex v ++
          str ", " ++ y ++ str ". \\href\x7b" ++ u ++ str "\x7d\x7blink\x7d\x7d\n") := by
  refine ⟨?_, ?_, ?_, ?_, ?_⟩
  · intro n u
    simp [format_contact_links, List.intercalate]
  · intro ti lo co d1 d2 u0 us
    simp [companyText, truthy]
  · intro t o l dt d0 u0 ds us
    simp [awardOrgText, truthy]
  · intro t o dt u
    simp [certBlock]
  · intro au t v y u
    simp [pubBlock]

/-! ## Claim C9: the skills ampersand guards are redundant

The skills formatter pre-escapes ampersands, runs the Escaper, then
collapses double-escaped ampersands again.  The lemmas below prove this
equal to the Escaper alone: pre-escaped text is a fixed point of
`ampNorm`, and the trailing collapse pass commutes with the
per-character substitutions to cancel the pre-escape exactly. -/

theorem escH_bs : escH '\\' = ['\\'] := by decide

theorem escH_amp : escH '&' = ['&'] := by decide

theorem charMap_hAmp_cons_amp (y : Str) :
    charMap hAmp ('&' :: y) = '\\' :: '&' :: charMap hAmp y := by
  simp [charMap, hAmp]

theorem charMap_hAmp_cons_ne (e : Char) (y : Str) (he : e ≠ '&') :
    charMap hAmp (e :: y) = e :: charMap hAmp y := by
  simp [charMap, hAmp, if_neg he]

theorem charMap_escH_cons (e : Char) (y : Str) :
    charMap escH (e :: y) = escH e ++ charMap escH y := rfl

theorem charMap_escH_bsamp (M : Str) :
    charMap escH ('\\' :: '&' :: M) = '\\' :: '&' :: charMap escH M := by
  simp [charMap, escH_bs, escH_amp]

/-- Copying scan: a segment avoiding the pattern head passes through
`replace` unchanged, the scan continuing on the rest. -/
theorem replaceAll_no_head_pass (p : Char) (pt rep : Str) (l M : Str)
    (h : ∀ c ∈ l, c ≠ p) :
    replaceAll (p :: pt) rep (l ++ M) = l ++ replaceAll (p :: pt) rep M := by
  induction l with
  | nil => rfl
  | cons c cs ih =>
    rw [List.cons_append, replaceAll_head_ne p pt rep c _ (h c (List.mem_cons_self c cs)),
      ih (fun d hd => h d (List.mem_cons_of_mem c hd))]
    rfl

/-- If `c` is none of the eight substituted characters, `escH` keeps it. -/
theorem escH_self (c : Char) (h1 : c ≠ '%') (h2 : c ≠ '$') (h3 : c ≠ '#')
    (h4 : c ≠ '_') (h5 : c ≠ '\x7b') (h6 : c ≠ '\x7d') (h7 : c ≠ '~')
    (h8 : c ≠ '^') : escH c = [c] := by
  simp [escH, if_neg h1, if_neg h2, if_neg h3, if_neg h4, if_neg h5, if_neg h6,
    if_neg h7, if_neg h8]

theorem escHP_head_ne_amp (y T : Str) :
    charMap escH (charMap hAmp y) ≠ '&' :: T := by
  cases y with
  | nil => simp [charMap]
  | cons e y' =>
    by_cases he : e = '&'
    · subst he
      rw [charMap_hAmp_cons_amp, charMap_escH_bsamp]
      intro heq
      injection heq with h1 h2
      exact absurd h1 (by decide)
    · rw [charMap_hAmp_cons_ne e y' he, charMap_escH_cons]
      by_cases h1 : e = '%'
      · subst h1; rw [show escH '%' = ['\\', '%'] from by decide]
        intro heq; injection heq with ha; exact absurd ha (by decide)
      by_cases h2 : e = '$'
      · subst h2; rw [show escH '$' = ['\\', '$'] from by decide]
        intro heq; injection heq with ha; exact absurd ha (by decide)
      by_cases h3 : e = '#'
      · subst h3; rw [show escH '#' = ['\\', '#'] from by decide]
        intro heq; injection heq with ha; exact absurd ha (by decide)
      by_cases h4 : e = '_'
      · subst h4; rw [show escH '_' = ['\\', '_'] from by decide]
        intro heq; injection heq with ha; exact absurd ha (by decide)
      by_cases h5 : e = '\x7b'
      · subst h5; rw [show escH '\x7b' = ['\\', '\x7b'] from by decide]
        intro heq; injection heq with ha; exact absurd ha (by decide)
      by_cases h6 : e = '\x7d'
      · subst h6; rw [show escH '\x7d' = ['\\', '\x7d'] from by decide]
        intro heq; injection heq with ha; exact absurd ha (by decide)
      by_cases h7 : e = '~'
      · subst h7; rw [show escH '~' = str "\\textasciitilde\x7b\x7d" from by decide]
        intro heq; injection heq with ha; exact absurd ha (by decide)
      by_cases h8 : e = '^'
      · subst h8; rw [show escH '^' = str "\\textasciicircum\x7b\x7d" from by decide]
        intro heq; injection heq with ha; exact absurd ha (by decide)
      rw [escH_self e h1 h2 h3 h4 h5 h6 h7 h8]
      intro heq
      injection heq with ha
      exact he ha

theorem escHP_not_bsamp (cs : Str) (h : ∀ cs1 : Str, cs ≠ '&' :: cs1) (T : Str) :
    charMap escH (charMap hAmp cs) ≠ '\\' :: '&' :: T := by
  cases cs with
  | nil => simp [charMap]
  | cons e y' =>
    by_cases he : e = '&'
    · subst he
      exact absurd rfl (h y')
    · rw [charMap_hAmp_cons_ne e y' he, charMap_escH_cons]
      by_cases h1 : e = '%'
      · subst h1; rw [show escH '%' = ['\\', '%'] from by decide]
        intro heq; injection heq with ha hb; injection hb with hc
        exact absurd hc (by decide)
      by_cases h2 : e = '$'
      · subst h2; rw [show escH '$' = ['\\', '$'] from by decide]
        intro heq; injection heq with ha hb; injection hb with hc
        exact absurd hc (by decide)
      by_cases h3 : e = '#'
      · subst h3; rw [show escH '#' = ['\\', '#'] from by decide]
        intro heq; injection heq with ha hb; injection hb with hc
        exact absurd hc (by decide)
      by_cases h4 : e = '_'
      · subst h4; rw [show escH '_' = ['\\', '_'] from by decide]
        intro heq; injection heq with ha hb; injection hb with hc
        exact absurd hc (by decide)
      by_cases h5 : e = '\x7b'
      · subst h5; rw [show escH '\x7b' = ['\\', '\x7b'] from by decide]
        intro heq; injection heq with ha hb; injection hb with hc
        exact absurd hc (by decide)
      by_cases h6 : e = '\x7d'
      · subst h6; rw [show escH '\x7d' = ['\\', '\x7d'] from by decide]
        intro heq; injection heq with ha hb; injection hb with hc
        exact absurd hc (by decide)
      by_cases h7 : e = '~'
      · subst h7; rw [show escH '~' = str "\\textasciitilde\x7b\x7d" from by decide]
        intro heq; injection heq with ha hb; injection hb with hc
        exact absurd hc (by decide)
      by_cases h8 : e = '^'
      · subst h8; rw [show escH '^' = str "\\textasciicircum\x7b\x7d" from by decide]
        intro heq; injection heq with ha hb; injection hb with hc
        exact absurd hc (by decide)
      rw [escH_self e h1 h2 h3 h4 h5 h6 h7 h8]
      by_cases hbs : e = '\\'
      · subst hbs
        intro heq
        injection heq with ha hb
        exact escHP_head_ne_amp y' T hb
      · intro heq
        injection heq with ha
        exact hbs ha

/-- Pre-escaped text is a fixed point of the ampersand normalisation. -/
theorem ampNorm_fix_pre (x : Str) : ampNorm (charMap hAmp x) = charMap hAmp x := by
  induction x with
  | nil => rfl
  | cons c cs ih =>
    by_cases hc : c = '&'
    · subst hc
      rw [charMap_hAmp_cons_amp, ampNorm.eq_3, ih]
    · rw [charMap_hAmp_cons_ne c cs hc]
      by_cases hbs : c = '\\'
      · subst hbs
        rw [ampNorm.eq_4 (charMap hAmp cs) (fun cs1 h1 => hAmp_head_ne cs cs1 h1), ih]
      · rw [ampNorm.eq_5 c (charMap hAmp cs) (fun h => hc h)
          (fun cs1 hb _ => hbs hb) (fun h => hbs h), ih]

/-- The double-escape collapse commutes with one `escH` substitution. -/
theorem collapse_escH_comm (c : Char) (hbs : c ≠ '\\') (M : Str) :
    replaceAll ['\\', '\\', '&'] (str "\\&") (escH c ++ M) =
      escH c ++ replaceAll ['\\', '\\', '&'] (str "\\&") M := by
  by_cases h1 : c = '%'
  · subst h1
    rw [show escH '%' = ['\\', '%'] from by decide]
    rw [show (['\\', '%'] : Str) ++ M = '\\' :: '%' :: M from rfl,
      replaceAll_second_ne '\\' '\\' ['&'] (str "\\&") '%' M (by decide),
      replaceAll_head_ne '\\' ['\\', '&'] (str "\\&") '%' M (by decide)]
    rfl
  by_cases h2 : c = '$'
  · subst h2
    rw [show escH '$' = ['\\', '$'] from by decide]
    rw [show (['\\', '$'] : Str) ++ M = '\\' :: '$' :: M from rfl,
      replaceAll_second_ne '\\' '\\' ['&'] (str "\\&") '$' M (by decide),
      replaceAll_head_ne '\\' ['\\', '&'] (str "\\&") '$' M (by decide)]
    rfl
  by_cases h3 : c = '#'
  · subst h3
    rw [show escH '#' = ['\\', '#'] from by decide]
    rw [show (['\\', '#'] : Str) ++ M = '\\' :: '#' :: M from rfl,
      replaceAll_second_ne '\\' '\\' ['&'] (str "\\&") '#' M (by decide),
      replaceAll_head_ne '\\' ['\\', '&'] (str "\\&") '#' M (by decide)]
    rfl
  by_cases h4 : c = '_'
  · subst h4
    rw [show escH '_' = ['\\', '_'] from by decide]
    rw [show (['\\', '_'] : Str) ++ M = '\\' :: '_' :: M from rfl,
      replaceAll_second_ne '\\' '\\' ['&'] (str "\\&") '_' M (by decide),
      replaceAll_head_ne '\\' ['\\', '&'] (str "\\&") '_' M (by decide)]
    rfl
  by_cases h5 : c = '\x7b'
  · subst h5
    rw [show escH '\x7b' = ['\\', '\x7b'] from by decide]
    rw [show (['\\', '\x7b'] : Str) ++ M = '\\' :: '\x7b' :: M from rfl,
      replaceAll_second_ne '\\' '\\' ['&'] (str "\\&") '\x7b' M (by decide),
      replaceAll_head_ne '\\' ['\\', '&'] (str "\\&") '\x7b' M (by decide)]
    rfl
  by_cases h6 : c = '\x7d'
  · subst h6
    rw [show escH '\x7d' = ['\\', '\x7d'] from by decide]
    rw [show (['\\', '\x7d'] : Str) ++ M = '\\' :: '\x7d' :: M from rfl,
      replaceAll_second_ne '\\' '\\' ['&'] (str "\\&") '\x7d' M (by decide),
      replaceAll_head_ne '\\' ['\\', '&'] (str "\\&") '\x7d' M (by decide)]
    rfl
  by_cases h7 : c = '~'
  · subst h7
    rw [show escH '~' = str "\\textasciitilde\x7b\x7d" from by decide]
    rw [show str "\\textasciitilde\x7b\x7d" ++ M =
        '\\' :: 't' :: (str "extasciitilde\x7b\x7d" ++ M) from rfl,
      replaceAll_second_ne '\\' '\\' ['&'] (str "\\&") 't' _ (by decide),
      show ('t' :: (str "extasciitilde\x7b\x7d" ++ M) : Str) =
        str "textasciitilde\x7b\x7d" ++ M from rfl,
      replaceAll_no_head_pass '\\' ['\\', '&'] (str "\\&") (str "textasciitilde\x7b\x7d") M
        (by decide)]
    rfl
  by_cases h8 : c = '^'
  · subst h8
    rw [show escH '^' = str "\\textasciicircum\x7b\x7d" from by decide]
    rw [show str "\\textasciicircum\x7b\x7d" ++ M =
        '\\' :: 't' :: (str "extasciicircum\x7b\x7d" ++ M) from rfl,
      replaceAll_second_ne '\\' '\\' ['&'] (str "\\&") 't' _ (by decide),
      show ('t' :: (str "extasciicircum\x7b\x7d" ++ M) : Str) =
        str "textasciicircum\x7b\x7d" ++ M from rfl,
      replaceAll_no_head_pass '\\' ['\\', '&'] (str "\\&") (str "textasciicircum\x7b\x7d") M
        (by decide)]
    rfl
  rw [escH_self c h1 h2 h3 h4 h5 h6 h7 h8,
    show ([c] : Str) ++ M = c :: M from rfl,
    replaceAll_head_ne '\\' ['\\', '&'] (str "\\&") c M hbs]
  rfl

/-- Core of C9: collapsing double-escaped ampersands after escaping
pre-escaped text equals escaping the raw text. -/
theorem collapse_escape_pre (x : Str) :
    replaceAll ['\\', '\\', '&'] (str "\\&") (charMap escH (charMap hAmp x)) =
      charMap escH (ampNorm x) := by
  induction x using ampNorm.induct with
  | case1 => rfl
  | case2 cs ih =>
    rw [charMap_hAmp_cons_amp, charMap_escH_bsamp,
      replaceAll_second_ne '\\' '\\' ['&'] (str "\\&") '&' _ (by decide),
      replaceAll_head_ne '\\' ['\\', '&'] (str "\\&") '&' _ (by decide), ih,
      ampNorm.eq_2, charMap_escH_bsamp]
  | case3 cs ih =>
    rw [charMap_hAmp_cons_ne '\\' ('&' :: cs) (by decide), charMap_hAmp_cons_amp,
      show charMap escH ('\\' :: '\\' :: '&' :: charMap hAmp cs) =
        '\\' :: '\\' :: '&' :: charMap escH (charMap hAmp cs) from by
        simp [charMap, escH_bs, escH_amp],
      show ('\\' :: '\\' :: '&' :: charMap escH (charMap hAmp cs) : Str) =
        ['\\', '\\', '&'] ++ charMap escH (charMap hAmp cs) from rfl,
      replaceAll_self_prefix ['\\', '\\', '&'] (str "\\&") _ (by simp), ih,
      ampNorm.eq_3, charMap_escH_bsamp]
    rfl
  | case4 cs hcs ih =>
    rw [charMap_hAmp_cons_ne '\\' cs (by decide), charMap_escH_cons, escH_bs,
      show (['\\'] : Str) ++ charMap escH (charMap hAmp cs) =
        '\\' :: charMap escH (charMap hAmp cs) from rfl,
      replaceAll_cons_neg _ _ _ _ (by
        rintro ⟨hpre, -⟩
        obtain ⟨r, hr⟩ := (isPrefixOf_iff _ _).mp hpre
        simp only [List.cons_append] at hr
        injection hr with hr1 hr2
        exact escHP_not_bsamp cs (fun cs1 h1 => hcs cs1 h1) r hr2),
      ih, ampNorm.eq_4 cs hcs, charMap_escH_cons, escH_bs]
    rfl
  | case5 c cs hc1 hc2 hc3 ih =>
    rw [charMap_hAmp_cons_ne c cs (fun h => hc1 h), charMap_escH_cons,
      collapse_escH_comm c (fun h => hc3 h), ih, ampNorm.eq_5 c cs hc1 hc2 hc3,
      charMap_escH_cons]

/-- The complete per-text redundancy statement for one skills field. -/
theorem skill_amp_redundant (x : Str) :
    replaceAll ['\\', '\\', '&'] (str "\\&")
      (escape_latex (replaceAll ['&'] (str "\\&") x)) = escape_latex x := by
  rw [show replaceAll ['&'] (str "\\&") x = charMap hAmp x from
      replaceAll_singleton '&' (str "\\&") x,
    escape_char, ampNorm_fix_pre, collapse_escape_pre, ← escape_char]

/-- Claim C9: for every skill group, the pre-escaping of ampersands and
the post-escaping double-escape fix of the skills formatter are pure
redundancy — the emitted block equals the one obtained by applying the
plain Escaper alone to the raw category and items. -/
theorem claim9_skills_guards_redundant (skills : List Skill) :
    format_skills skills = format_skills_plain skills := by
  have hb : ∀ s : Skill, skillBlock s = skillBlockPlain s := by
    intro s
    simp only [skillBlock, skillBlockPlain, skill_amp_redundant]
  rw [format_skills, format_skills_plain, funext hb]

/-! ## Claim C5: ampersand safety of the Escaper -/

theorem noTripleAux_amp (k : Nat) (cs : Str) :
    noTripleAux k ('&' :: cs) = (decide (k ≤ 2) && noTripleAux 0 cs) := by
  simp [noTripleAux]

theorem noTripleAux_bs (k : Nat) (cs : Str) :
    noTripleAux k ('\\' :: cs) = noTripleAux (k + 1) cs := by
  simp [noTripleAux]

theorem noTripleAux_other (k : Nat) (c : Char) (cs : Str) (h1 : c ≠ '&')
    (h2 : c ≠ '\\') : noTripleAux k (c :: cs) = noTripleAux 0 cs := by
  simp [noTripleAux, if_neg h1, if_neg h2]

theorem ampOkAux_cons (p : Bool) (c : Char) (cs : Str) :
    ampOkAux p (c :: cs) = ((c != '&' || p) && ampOkAux (c == '\\') cs) := rfl

theorem ampOkAux_mono (l : Str) (p : Bool) (h : ampOkAux false l = true) :
    ampOkAux p l = true := by
  cases l with
  | nil => rfl
  | cons c cs =>
    rw [ampOkAux_cons] at h ⊢
    simp only [Bool.and_eq_true, Bool.or_eq_true] at h ⊢
    exact ⟨h.1.elim Or.inl (fun hf => absurd hf (by simp)), h.2⟩

theorem ampOkAux_append_no_amp (a : Str) (ha : '&' ∉ a) :
    ∀ (R : Str) (p : Bool), ampOkAux false R = true → ampOkAux p (a ++ R) = true := by
  induction a with
  | nil => exact fun R p h => ampOkAux_mono R p h
  | cons c cs ih =>
    intro R p h
    rw [List.cons_append, ampOkAux_cons]
    simp only [Bool.and_eq_true, Bool.or_eq_true]
    refine ⟨Or.inl ?_, ih (fun hm => ha (List.mem_cons_of_mem c hm)) R _ h⟩
    simp only [bne_iff_ne, ne_eq]
    exact fun he => ha (he ▸ List.mem_cons_self c cs)

/-- After `ampNorm`, every ampersand is preceded by a backslash. -/
theorem ampOk_ampNorm (s : Str) : ∀ p : Bool, ampOkAux p (ampNorm s) = true := by
  induction s using ampNorm.induct with
  | case1 => intro p; rfl
  | case2 cs ih =>
    intro p
    rw [ampNorm.eq_2, ampOkAux_cons, ampOkAux_cons]
    simp only [Bool.and_eq_true, Bool.or_eq_true]
    exact ⟨Or.inl (by decide), Or.inr (by decide), ih _⟩
  | case3 cs ih =>
    intro p
    rw [ampNorm.eq_3, ampOkAux_cons, ampOkAux_cons]
    simp only [Bool.and_eq_true, Bool.or_eq_true]
    exact ⟨Or.inl (by decide), Or.inr (by decide), ih _⟩
  | case4 cs hcs ih =>
    intro p
    rw [ampNorm.eq_4 cs hcs, ampOkAux_cons]
    simp only [Bool.and_eq_true, Bool.or_eq_true]
    exact ⟨Or.inl (by decide), ih _⟩
  | case5 c cs hc1 hc2 hc3 ih =>
    intro p
    rw [ampNorm.eq_5 c cs hc1 hc2 hc3, ampOkAux_cons]
    simp only [Bool.and_eq_true, Bool.or_eq_true]
    refine ⟨Or.inl ?_, ih _⟩
    simp only [bne_iff_ne, ne_eq]
    exact fun he => hc1 he

/-- The eight per-character substitutions preserve the ampersand
invariant. -/
theorem ampOk_charMap (s : Str) : ∀ p : Bool, ampOkAux p s = true →
    ampOkAux p (charMap escH s) = true := by
  induction s with
  | nil => intro p h; exact h
  | cons c cs ih =>
    intro p h
    rw [ampOkAux_cons] at h
    simp only [Bool.and_eq_true, Bool.or_eq_true] at h
    obtain ⟨hc, hrest⟩ := h
    rw [charMap_escH_cons]
    by_cases hamp : c = '&'
    · subst hamp
      rw [escH_amp, List.cons_append, List.nil_append, ampOkAux_cons]
      simp only [Bool.and_eq_true, Bool.or_eq_true]
      refine ⟨hc, ?_⟩
      rw [show (('&' : Char) == '\\') = false from by decide] at hrest ⊢
      exact ih false hrest
    · by_cases hbs : c = '\\'
      · subst hbs
        rw [escH_bs, List.cons_append, List.nil_append, ampOkAux_cons]
        simp only [Bool.and_eq_true, Bool.or_eq_true]
        refine ⟨Or.inl (by decide), ?_⟩
        rw [show (('\\' : Char) == '\\') = true from by decide] at hrest ⊢
        exact ih true hrest
      · have hcs0 : ampOkAux false cs = true := by
          rw [show (c == '\\') = false from by
            simp only [beq_eq_false_iff_ne, ne_eq]; exact hbs] at hrest
          exact hrest
        have hesc : '&' ∉ escH c := by
          by_cases h1 : c = '%'
          · subst h1; decide
          by_cases h2 : c = '$'
          · subst h2; decide
          by_cases h3 : c = '#'
          · subst h3; decide
          by_cases h4 : c = '_'
          · subst h4; decide
          by_cases h5 : c = '\x7b'
          · subst h5; decide
          by_cases h6 : c = '\x7d'
          · subst h6; decide
          by_cases h7 : c = '~'
          · subst h7; decide
          by_cases h8 : c = '^'
          · subst h8; decide
          rw [escH_self c h1 h2 h3 h4 h5 h6 h7 h8]
          simp only [List.mem_singleton]
          exact fun he => hamp he.symm
        exact ampOkAux_append_no_amp (escH c) hesc (charMap escH cs) p (ih false hcs0)

/-- Reading a text through `ampOkAux` and splitting at an ampersand. -/
theorem ampOk_split (s : Str) (hs : ampOkAux false s = true) :
    ∀ u v : Str, s = u ++ '&' :: v → ∃ u', u = u' ++ ['\\'] := by
  suffices haux : ∀ (u : Str) (p : Bool) (v : Str),
      ampOkAux p (u ++ '&' :: v) = true →
      (u = [] → p = true) ∧ (u ≠ [] → ∃ u', u = u' ++ ['\\']) by
    intro u v huv
    obtain ⟨hnil, hne⟩ := haux u false v (huv ▸ hs)
    cases hu : u with
    | nil => exact absurd (hnil hu) (by decide)
    | cons d u'' =>
      rw [← hu]
      exact hne (by rw [hu]; simp)
  intro u
  induction u with
  | nil =>
    intro p v h
    refine ⟨fun _ => ?_, fun hne => absurd rfl hne⟩
    rw [List.nil_append, ampOkAux_cons] at h
    simp only [Bool.and_eq_true, Bool.or_eq_true] at h
    rcases h.1 with h1 | h1
    · exact absurd h1 (by decide)
    · exact h1
  | cons c u' ih =>
    intro p v h
    rw [List.cons_append, ampOkAux_cons] at h
    simp only [Bool.and_eq_true] at h
    refine ⟨fun hne => absurd hne (by simp), fun _ => ?_⟩
    obtain ⟨hnil, hne⟩ := ih (c == '\\') v h.2
    cases hu' : u' with
    | nil =>
      have hcbs : c = '\\' := by simpa using hnil hu'
      exact ⟨[], by rw [hcbs]; rfl⟩
    | cons d u'' =>
      obtain ⟨w, hw⟩ := hne (by rw [hu']; simp)
      exact ⟨c :: w, by rw [← hu', hw]; rfl⟩

theorem noTripleAux_append (a : Str) (ha : '&' ∉ a) :
    ∀ (k : Nat) (R : Str), noTripleAux (tState k a) R = true →
      noTripleAux k (a ++ R) = true := by
  induction a with
  | nil => intro k R h; exact h
  | cons c cs ih =>
    intro k R h
    have hc : c ≠ '&' := fun he => ha (he ▸ List.mem_cons_self c cs)
    rw [List.cons_append, show noTripleAux k (c :: (cs ++ R)) =
      noTripleAux (if c = '\\' then k + 1 else 0) (cs ++ R) from by
        simp [noTripleAux, if_neg hc]]
    refine ih (fun hm => ha (List.mem_cons_of_mem c hm)) _ R ?_
    rw [show tState k (c :: cs) = tState (if c = '\\' then k + 1 else 0) cs from rfl] at h
    exact h

/-- `ampNorm` preserves triple-freedom, under the invariant that an
ampersand at the head is preceded by at most one pending backslash. -/
theorem noTriple_ampNorm (s : Str) : ∀ k : Nat,
    (∀ cs1 : Str, s = '&' :: cs1 → k ≤ 1) → noTripleAux k s = true →
    noTripleAux k (ampNorm s) = true := by
  induction s using ampNorm.induct with
  | case1 => intro k _ h; exact h
  | case2 cs ih =>
    intro k hinv h
    have hk : k ≤ 1 := hinv cs rfl
    rw [noTripleAux_amp, Bool.and_eq_true] at h
    rw [ampNorm.eq_2, noTripleAux_bs, noTripleAux_amp,
      decide_eq_true (by omega : k + 1 ≤ 2), Bool.true_and]
    exact ih 0 (fun _ _ => by omega) h.2
  | case3 cs ih =>
    intro k hinv h
    rw [noTripleAux_bs, noTripleAux_amp, Bool.and_eq_true] at h
    rw [ampNorm.eq_3, noTripleAux_bs, noTripleAux_amp, h.1,
      Bool.true_and]
    exact ih 0 (fun _ _ => by omega) h.2
  | case4 cs hcs ih =>
    intro k hinv h
    rw [noTripleAux_bs] at h
    rw [ampNorm.eq_4 cs hcs, noTripleAux_bs]
    exact ih (k + 1) (fun cs1 h1 => absurd h1 (fun he => hcs cs1 he)) h
  | case5 c cs hc1 hc2 hc3 ih =>
    intro k hinv h
    have hcamp : c ≠ '&' := fun he => hc1 he
    have hcbs : c ≠ '\\' := fun he => hc3 he
    rw [noTripleAux_other k c cs hcamp hcbs] at h
    rw [ampNorm.eq_5 c cs hc1 hc2 hc3, noTripleAux_other k c _ hcamp hcbs]
    exact ih 0 (fun _ _ => by omega) h

/-- The eight per-character substitutions preserve triple-freedom. -/
theorem noTriple_charMap (s : Str) : ∀ k : Nat, noTripleAux k s = true →
    noTripleAux k (charMap escH s) = true := by
  induction s with
  | nil => intro k h; exact h
  | cons c cs ih =>
    intro k h
    rw [charMap_escH_cons]
    by_cases hamp : c = '&'
    · subst hamp
      rw [noTripleAux_amp, Bool.and_eq_true] at h
      rw [escH_amp, List.cons_append, List.nil_append, noTripleAux_amp,
        h.1, Bool.true_and]
      exact ih 0 h.2
    · by_cases hbs : c = '\\'
      · subst hbs
        rw [noTripleAux_bs] at h
        rw [escH_bs, List.cons_append, List.nil_append, noTripleAux_bs]
        exact ih _ h
      · rw [noTripleAux_other k c cs hamp hbs] at h
        have hrec := ih 0 h
        by_cases h1 : c = '%'
        · subst h1
          rw [show escH '%' = ['\\', '%'] from by decide]
          exact noTripleAux_append ['\\', '%'] (by decide) k _
            (by simpa [tState] using hrec)
        by_cases h2 : c = '$'
        · subst h2
          rw [show escH '$' = ['\\', '$'] from by decide]
          exact noTripleAux_append ['\\', '$'] (by decide) k _
            (by simpa [tState] using hrec)
        by_cases h3 : c = '#'
        · subst h3
          rw [show escH '#' = ['\\', '#'] from by decide]
          exact noTripleAux_append ['\\', '#'] (by decide) k _
            (by simpa [tState] using hrec)
        by_cases h4 : c = '_'
        · subst h4
          rw [show escH '_' = ['\\', '_'] from by decide]
          exact noTripleAux_append ['\\', '_'] (by decide) k _
            (by simpa [tState] using hrec)
        by_cases h5 : c = '\x7b'
        · subst h5
          rw [show escH '\x7b' = ['\\', '\x7b'] from by decide]
          exact noTripleAux_append ['\\', '\x7b'] (by decide) k _
            (by simpa [tState] using hrec)
        by_cases h6 : c = '\x7d'
        · subst h6
          rw [show escH '\x7d' = ['\\', '\x7d'] from by decide]
          exact noTripleAux_append ['\\', '\x7d'] (by decide) k _
            (by simpa [tState] using hrec)
        by_cases h7 : c = '~'
        · subst h7
          rw [show escH '~' = str "\\textasciitilde\x7b\x7d" from by decide]
          exact noTripleAux_append (str "\\textasciitilde\x7b\x7d") (by decide) k _
            (by simpa [tState] using hrec)
        by_cases h8 : c = '^'
        · subst h8
          rw [show escH '^' = str "\\textasciicircum\x7b\x7d" from by decide]
          exact noTripleAux_append (str "\\textasciicircum\x7b\x7d") (by decide) k _
            (by simpa [tState] using hrec)
        rw [escH_self c h1 h2 h3 h4 h5 h6 h7 h8, List.cons_append, List.nil_append,
          noTripleAux_other k c _ hamp hbs]
        exact ih 0 h

/-- A failing run of the triple machine locates a triple-escaped
ampersand, or a short backslash prefix explained by the start state. -/
theorem noTriple_false_contains (s : Str) : ∀ k : Nat, noTripleAux k s = false →
    containsSeq ['\\', '\\', '\\', '&'] s ∨
      ∃ j v, s = List.replicate j '\\' ++ '&' :: v ∧ 3 ≤ k + j ∧ j ≤ 2 := by
  induction s with
  | nil => intro k h; simp [noTripleAux] at h
  | cons c cs ih =>
    intro k h
    by_cases hamp : c = '&'
    · subst hamp
      rw [noTripleAux_amp] at h
      by_cases hk : k ≤ 2
      · rw [decide_eq_true hk, Bool.true_and] at h
        rcases ih 0 h with hcl | ⟨j, v, hcs, h3, hj⟩
        · exact Or.inl (containsSeq_cons _ '&' cs hcl)
        · omega
      · exact Or.inr ⟨0, cs, by simp, by omega, by omega⟩
    · by_cases hbs : c = '\\'
      · subst hbs
        rw [noTripleAux_bs] at h
        rcases ih (k + 1) h with hcl | ⟨j, v, hcs, h3, hj⟩
        · exact Or.inl (containsSeq_cons _ '\\' cs hcl)
        · by_cases hj1 : j ≤ 1
          · refine Or.inr ⟨j + 1, v, ?_, by omega, by omega⟩
            rw [List.replicate_succ, List.cons_append, hcs]
          · have hj2 : j = 2 := by omega
            subst hj2
            refine Or.inl ⟨[], v, ?_⟩
            rw [hcs]
            rfl
      · rw [noTripleAux_other k c cs hamp hbs] at h
        rcases ih 0 h with hcl | ⟨j, v, hcs, h3, hj⟩
        · exact Or.inl (containsSeq_cons _ c cs hcl)
        · omega

/-- A text containing a triple-escaped ampersand fails the triple
machine from every start state. -/
theorem contains_noTriple_false (s : Str)
    (h : containsSeq ['\\', '\\', '\\', '&'] s) :
    ∀ k : Nat, noTripleAux k s = false := by
  obtain ⟨u, v, rfl⟩ := h
  induction u with
  | nil =>
    intro k
    rw [List.nil_append, show (['\\', '\\', '\\', '&'] : Str) ++ v =
      '\\' :: '\\' :: '\\' :: '&' :: v from rfl, noTripleAux_bs, noTripleAux_bs,
      noTripleAux_bs, noTripleAux_amp,
      decide_eq_false (by omega : ¬ k + 1 + 1 + 1 ≤ 2), Bool.false_and]
  | cons c u' ih =>
    intro k
    simp only [List.cons_append, List.append_assoc] at ih ⊢
    by_cases hamp : c = '&'
    · subst hamp
      rw [noTripleAux_amp, ih 0, Bool.and_false]
    · by_cases hbs : c = '\\'
      · subst hbs
        rw [noTripleAux_bs, ih (k + 1)]
      · rw [noTripleAux_other k c _ hamp hbs, ih 0]

/-- Counterexample to C5 as stated: the input holding three backslashes
followed by an ampersand contains '&', and the Escaper's output on it
contains a triple-escaped ampersand (three backslashes then '&'). -/
theorem claim5_counterexample :
    '&' ∈ str "\\\\\\&" ∧
      containsSeq ['\\', '\\', '\\', '&'] (escape_latex (str "\\\\\\&")) :=
  ⟨by decide, (seqOccurs_iff _ _).mp (by decide)⟩

/-- Claim C5 (amended): for every input containing '&', the output of
`escape_latex` never contains an unescaped ampersand (every '&' in the
output is immediately preceded by a backslash), and — provided the input
itself does not already contain three consecutive backslashes
immediately followed by an ampersand — the output never contains a
triple-escaped ampersand either. -/
theorem claim5_escape_amp_safe (s : Str) (h1 : '&' ∈ s)
    (h2 : ¬ containsSeq ['\\', '\\', '\\', '&'] s) :
    (∀ u v : Str, escape_latex s = u ++ '&' :: v → ∃ u', u = u' ++ ['\\']) ∧
      ¬ containsSeq ['\\', '\\', '\\', '&'] (escape_latex s) := by
  have hs : noTripleAux 0 s = true := by
    cases hval : noTripleAux 0 s with
    | true => rfl
    | false =>
      rcases noTriple_false_contains s 0 hval with hcl | ⟨j, v, _, h3, hj⟩
      · exact absurd hcl h2
      · omega
  have hesc : escape_latex s = charMap escH (ampNorm s) := escape_char s
  constructor
  · intro u v huv
    refine ampOk_split (escape_latex s) ?_ u v huv
    rw [hesc]
    exact ampOk_charMap (ampNorm s) false (ampOk_ampNorm s false)
  · intro hcl
    have htr : noTripleAux 0 (escape_latex s) = true := by
      rw [hesc]
      exact noTriple_charMap (ampNorm s) 0
        (noTriple_ampNorm s 0 (fun _ _ => by omega) hs)
    rw [contains_noTriple_false (escape_latex s) hcl 0] at htr
    exact absurd htr (by simp)

/-- Witness for (the amended) C5 at a concrete input. -/
theorem claim5_witness :
    ('&' ∈ str "Fish & Chips" ∧
      ¬ containsSeq ['\\', '\\', '\\', '&'] (str "Fish & Chips")) ∧
    ((∀ u v : Str, escape_latex (str "Fish & Chips") = u ++ '&' :: v →
        ∃ u', u = u' ++ ['\\']) ∧
      ¬ containsSeq ['\\', '\\', '\\', '&'] (escape_latex (str "Fish & Chips"))) :=
  ⟨⟨by decide, fun h => absurd ((seqOccurs_iff _ _).mpr h) (by decide)⟩,
    claim5_escape_amp_safe (str "Fish & Chips") (by decide)
      (fun h => absurd ((seqOccurs_iff _ _).mpr h) (by decide))⟩

/-! ## Claims C3 and C7: the Inline-Link Translator

The remaining lemmas characterise each stage of `translate_links` on
inputs decomposed around one link: the markdown rewrite, the cleanup
pass, the findall scan, placeholder protection, escaping, restoration. -/

theorem drop_length_takeWhile (p : Char → Bool) (l : Str) :
    l.drop (l.takeWhile p).length = l.dropWhile p := by
  induction l with
  | nil => rfl
  | cons c cs ih =>
    by_cases hp : p c = true
    · simp [List.takeWhile_cons, List.dropWhile_cons, hp, ih]
    · have hp' : p c = false := by
        cases hpc : p c
        · rfl
        · exact absurd hpc hp
      simp [List.takeWhile_cons, List.dropWhile_cons, hp']

theorem parseLink_length (cs t u r : Str) (h : parseLink cs = some (t, u, r)) :
    r.length < cs.length := by
  simp only [parseLink] at h
  split at h
  next r2 heq =>
    split at h
    next r4 heq2 =>
      split at h
      next hcond =>
        injection h with h'
        injection h' with h1 h2
        injection h2 with h2 h3
        subst h3
        have e1 := congrArg List.length heq
        have e2 := congrArg List.length heq2
        simp only [List.length_drop, List.length_cons] at e1 e2
        omega
      next => exact absurd h (by simp)
    next => exact absurd h (by simp)
  next => exact absurd h (by simp)

theorem mdSubF_congr : ∀ (n m : Nat) (s : Str), s.length ≤ n → s.length ≤ m →
    mdSubF n s = mdSubF m s := by
  intro n
  induction n with
  | zero =>
    intro m s hn hm
    cases s with
    | nil => cases m <;> rfl
    | cons c cs => simp at hn
  | succ n ih =>
    intro m s hn hm
    cases s with
    | nil => cases m <;> rfl
    | cons c cs =>
      cases m with
      | zero => simp at hm
      | succ m =>
        simp only [List.length_cons, Nat.succ_le_succ_iff] at hn hm
        simp only [mdSubF]
        by_cases hc : c = '['
        · rw [if_pos hc, if_pos hc]
          cases hp : parseLink cs with
          | none =>
            dsimp only
            rw [ih m cs hn hm]
          | some tur =>
            obtain ⟨t, u, r⟩ := tur
            have hlen := parseLink_length cs t u r hp
            dsimp only
            rw [ih m r (by omega) (by omega)]
        · rw [if_neg hc, if_neg hc, ih m cs hn hm]

theorem mdSub_cons_ne (c : Char) (cs : Str) (hc : c ≠ '[') :
    mdSub (c :: cs) = c :: mdSub cs := by
  show mdSubF (cs.length + 1) (c :: cs) = c :: mdSub cs
  simp only [mdSubF, if_neg hc]
  rfl

theorem mdSub_cons_link (cs t u r : Str) (h : parseLink cs = some (t, u, r)) :
    mdSub ('[' :: cs) = mkHref u t ++ mdSub r := by
  show mdSubF (cs.length + 1) ('[' :: cs) = mkHref u t ++ mdSub r
  simp only [mdSubF, h, eq_self_iff_true, if_true]
  congr 1
  exact mdSubF_congr cs.length r.length r (le_of_lt (parseLink_length cs t u r h)) le_rfl

theorem mdSub_pass (x rest : Str) (hx : '[' ∉ x) :
    mdSub (x ++ rest) = x ++ mdSub rest := by
  induction x with
  | nil => rfl
  | cons c cs ih =>
    rw [List.cons_append,
      mdSub_cons_ne c _ (fun he => hx (he ▸ List.mem_cons_self c cs)),
      ih (fun hm => hx (List.mem_cons_of_mem c hm))]
    rfl

theorem mdSub_id (d : Str) (hd : '[' ∉ d) : mdSub d = d := by
  induction d with
  | nil => rfl
  | cons c cs ih =>
    rw [mdSub_cons_ne c cs (fun he => hd (he ▸ List.mem_cons_self c cs)),
      ih (fun hm => hd (List.mem_cons_of_mem c hm))]

theorem splitAtBsAmp_stop (u r : Str) (hu : '\\' ∉ u) :
    splitAtBsAmp (u ++ '\x7d' :: r) = none := by
  induction u with
  | nil => exact splitAtBsAmp.eq_3 r
  | cons c cs ih =>
    by_cases hc : c = '\x7d'
    · subst hc
      exact splitAtBsAmp.eq_3 _
    · have hcbs : c ≠ '\\' := fun he => hu (he ▸ List.mem_cons_self c cs)
      rw [List.cons_append,
        splitAtBsAmp.eq_4 c _ (fun r1 hbs _ => hcbs hbs) (fun h => hc h),
        ih (fun hm => hu (List.mem_cons_of_mem c hm))]

theorem splitAtBsAmp_length (w a r : Str) (h : splitAtBsAmp w = some (a, r)) :
    r.length < w.length := by
  induction w generalizing a with
  | nil => rw [splitAtBsAmp.eq_1] at h; exact absurd h (by simp)
  | cons c cs ih =>
    by_cases hba : ∃ r1, c = '\\' ∧ cs = '&' :: r1
    · obtain ⟨r1, hc, hcs⟩ := hba
      subst hc
      subst hcs
      rw [splitAtBsAmp.eq_2] at h
      injection h with h'
      injection h' with h1 h2
      subst h2
      simp only [List.length_cons]
      omega
    · by_cases hc : c = '\x7d'
      · subst hc
        rw [splitAtBsAmp.eq_3] at h
        exact absurd h (by simp)
      · rw [splitAtBsAmp.eq_4 c cs (fun r1 h1 h2 => hba ⟨r1, h1, h2⟩) (fun h1 => hc h1)] at h
        cases hsp : splitAtBsAmp cs with
        | none => rw [hsp] at h; exact absurd h (by simp)
        | some p =>
          obtain ⟨a', r'⟩ := p
          rw [hsp] at h
          dsimp only at h
          injection h with h'
          injection h' with h1 h2
          subst h2
          have := ih a' hsp
          simp only [List.length_cons]
          omega

theorem parseCleanupAt_length (s a b r : Str) (h : parseCleanupAt s = some (a, b, r)) :
    r.length < s.length := by
  simp only [parseCleanupAt] at h
  split at h
  case isTrue hpre =>
    split at h
    next a' r1 hsp =>
      split at h
      next r3 heq =>
        injection h with h'
        injection h' with h1 h2
        injection h2 with h2 h3
        subst h3
        have hlen1 := splitAtBsAmp_length _ _ _ hsp
        have hlen2 := congrArg List.length heq
        obtain ⟨w, hw⟩ := (isPrefixOf_iff _ _).mp hpre
        have hwl := congrArg List.length hw
        simp only [List.length_drop, List.length_cons, List.length_append] at hlen1 hlen2 hwl
        omega
      next => exact absurd h (by simp)
    next => exact absurd h (by simp)
  case isFalse => exact absurd h (by simp)

theorem hrefCleanupF_congr : ∀ (n m : Nat) (s : Str), s.length ≤ n → s.length ≤ m →
    hrefCleanupF n s = hrefCleanupF m s := by
  intro n
  induction n with
  | zero =>
    intro m s hn hm
    cases s with
    | nil => cases m <;> rfl
    | cons c cs => simp at hn
  | succ n ih =>
    intro m s hn hm
    cases s with
    | nil => cases m <;> rfl
    | cons c cs =>
      cases m with
      | zero => simp at hm
      | succ m =>
        simp only [List.length_cons, Nat.succ_le_succ_iff] at hn hm
        simp only [hrefCleanupF]
        cases hp : parseCleanupAt (c :: cs) with
        | none =>
          dsimp only
          rw [ih m cs hn hm]
        | some abr =>
          obtain ⟨a, b, r⟩ := abr
          have hlen := parseCleanupAt_length (c :: cs) a b r hp
          simp only [List.length_cons] at hlen
          dsimp only
          rw [ih m r (by omega) (by omega)]

theorem hrefCleanup_cons_none (c : Char) (cs : Str) (h : parseCleanupAt (c :: cs) = none) :
    hrefCleanup (c :: cs) = c :: hrefCleanup cs := by
  show hrefCleanupF (cs.length + 1) (c :: cs) = c :: hrefCleanup cs
  simp only [hrefCleanupF, h]
  rfl

theorem parseCleanupAt_none_head (c : Char) (cs : Str) (hc : c ≠ '\\') :
    parseCleanupAt (c :: cs) = none := by
  rw [parseCleanupAt, if_neg]
  intro hpre
  obtain ⟨w, hw⟩ := (isPrefixOf_iff _ _).mp hpre
  rw [show str "\\href\x7b" ++ w = '\\' :: (str "href\x7b" ++ w) from rfl] at hw
  injection hw with h1
  exact hc h1

theorem hrefCleanup_id_no_bs (w : Str) (hw : '\\' ∉ w) : hrefCleanup w = w := by
  induction w with
  | nil => rfl
  | cons c cs ih =>
    rw [hrefCleanup_cons_none c cs
      (parseCleanupAt_none_head c cs (fun he => hw (he ▸ List.mem_cons_self c cs))),
      ih (fun hm => hw (List.mem_cons_of_mem c hm))]

theorem hrefCleanup_pass (l r : Str) (hl : '\\' ∉ l) :
    hrefCleanup (l ++ r) = l ++ hrefCleanup r := by
  induction l with
  | nil => rfl
  | cons c cs ih =>
    rw [List.cons_append, hrefCleanup_cons_none c _
      (parseCleanupAt_none_head c _ (fun he => hl (he ▸ List.mem_cons_self c cs))),
      ih (fun hm => hl (List.mem_cons_of_mem c hm))]
    rfl

/-- The cleanup pass is the identity on a text decomposed around one
hyperlink command whose url holds no backslash and no closing brace. -/
theorem hrefCleanup_single (x u t y : Str) (hx : '\\' ∉ x) (hu : '\\' ∉ u)
    (hub : '\x7d' ∉ u) (ht : '\\' ∉ t) (hy : '\\' ∉ y) :
    hrefCleanup (x ++ mkHref u t ++ y) = x ++ mkHref u t ++ y := by
  rw [List.append_assoc, hrefCleanup_pass x _ hx]
  congr 1
  have hsplit : parseCleanupAt (mkHref u t ++ y) = none := by
    rw [parseCleanupAt]
    rw [if_pos]
    · rw [show (mkHref u t ++ y).drop 6 =
          u ++ '\x7d' :: ('\x7b' :: t ++ '\x7d' :: y) from by
        simp only [mkHref, str, List.append_assoc]
        rfl]
      rw [splitAtBsAmp_stop u _ hu]
    · refine (isPrefixOf_iff _ _).mpr ⟨u ++ str "\x7d\x7b" ++ t ++ str "\x7d" ++ y, ?_⟩
      simp [mkHref, List.append_assoc]
  rw [show mkHref u t ++ y = '\\' :: (str "href\x7b" ++ u ++ str "\x7d\x7b" ++ t ++
      str "\x7d" ++ y) from by simp [mkHref, List.append_assoc]; rfl]
  rw [hrefCleanup_cons_none _ _ (by
    rw [show ('\\' :: (str "href\x7b" ++ u ++ str "\x7d\x7b" ++ t ++ str "\x7d" ++ y) : Str) =
      mkHref u t ++ y from by simp [mkHref, List.append_assoc]; rfl]
    exact hsplit)]
  rw [hrefCleanup_id_no_bs _ (by
    intro hm
    simp only [List.mem_append, List.mem_cons] at hm
    rcases hm with ((((hm | hm) | hm) | hm) | hm) | hm
    · exact absurd hm (by decide)
    · exact hu hm
    · exact absurd hm (by decide)
    · exact ht hm
    · exact absurd hm (by decide)
    · exact hy hm)]

theorem mkHref_cons (u t : Str) :
    mkHref u t = '\\' :: (str "href\x7b" ++ u ++ str "\x7d\x7b" ++ t ++ str "\x7d") := by
  rw [mkHref, show str "\\href\x7b" = '\\' :: str "href\x7b" from rfl]
  simp only [List.cons_append]

theorem mkHref_append_assoc (u t y : Str) :
    mkHref u t ++ y =
      str "\\href\x7b" ++ (u ++ ('\x7d' :: '\x7b' :: (t ++ '\x7d' :: y))) := by
  simp only [mkHref, List.append_assoc]
  rfl

theorem parseHrefAt_none_head (c : Char) (cs : Str) (hc : c ≠ '\\') :
    parseHrefAt (c :: cs) = none := by
  rw [parseHrefAt, if_neg]
  intro hpre
  obtain ⟨w, hw⟩ := (isPrefixOf_iff _ _).mp hpre
  rw [show str "\\href\x7b" ++ w = '\\' :: (str "href\x7b" ++ w) from rfl] at hw
  injection hw with h1
  exact hc h1

theorem parseHrefAt_length (s m r : Str) (h : parseHrefAt s = some (m, r)) :
    r.length < s.length := by
  simp only [parseHrefAt] at h
  split at h
  case isTrue hpre =>
    split at h
    next r1 heq =>
      split at h
      next r2 heq2 =>
        injection h with h'
        injection h' with h1 h2
        subst h2
        obtain ⟨w, hw⟩ := (isPrefixOf_iff _ _).mp hpre
        have e0 := congrArg List.length hw
        have e1 := congrArg List.length heq
        have e2 := congrArg List.length heq2
        simp only [List.length_drop, List.length_cons, List.length_append] at e0 e1 e2
        have e3 : (str "\\href\x7b").length = 6 := by decide
        rw [e3] at e0
        omega
      next => exact absurd h (by simp)
    next => exact absurd h (by simp)
  case isFalse => exact absurd h (by simp)

theorem findHrefsF_congr : ∀ (n m : Nat) (s : Str), s.length ≤ n → s.length ≤ m →
    findHrefsF n s = findHrefsF m s := by
  intro n
  induction n with
  | zero =>
    intro m s hn hm
    cases s with
    | nil => cases m <;> rfl
    | cons c cs => simp at hn
  | succ n ih =>
    intro m s hn hm
    cases s with
    | nil => cases m <;> rfl
    | cons c cs =>
      cases m with
      | zero => simp at hm
      | succ m =>
        simp only [List.length_cons, Nat.succ_le_succ_iff] at hn hm
        simp only [findHrefsF]
        cases hp : parseHrefAt (c :: cs) with
        | none =>
          dsimp only
          rw [ih m cs hn hm]
        | some mr =>
          obtain ⟨mm, r⟩ := mr
          have hlen := parseHrefAt_length (c :: cs) mm r hp
          simp only [List.length_cons] at hlen
          dsimp only
          rw [ih m r (by omega) (by omega)]

theorem findHrefs_cons_none (c : Char) (cs : Str) (h : parseHrefAt (c :: cs) = none) :
    findHrefs (c :: cs) = findHrefs cs := by
  show findHrefsF (cs.length + 1) (c :: cs) = findHrefs cs
  simp only [findHrefsF, h]
  rfl

theorem findHrefs_cons_some (c : Char) (cs m r : Str)
    (h : parseHrefAt (c :: cs) = some (m, r)) :
    findHrefs (c :: cs) = m :: findHrefs r := by
  have hlen := parseHrefAt_length (c :: cs) m r h
  simp only [List.length_cons] at hlen
  show findHrefsF (cs.length + 1) (c :: cs) = m :: findHrefs r
  simp only [findHrefsF, h]
  rw [findHrefsF_congr cs.length r.length r (by omega) le_rfl]
  rfl

theorem findHrefs_id_no_bs (w : Str) (hw : '\\' ∉ w) : findHrefs w = [] := by
  induction w with
  | nil => rfl
  | cons c cs ih =>
    rw [findHrefs_cons_none c cs
      (parseHrefAt_none_head c cs (fun he => hw (he ▸ List.mem_cons_self c cs))),
      ih (fun hm => hw (List.mem_cons_of_mem c hm))]

theorem findHrefs_pass (l r : Str) (hl : '\\' ∉ l) :
    findHrefs (l ++ r) = findHrefs r := by
  induction l with
  | nil => rfl
  | cons c cs ih =>
    rw [List.cons_append, findHrefs_cons_none c _
      (parseHrefAt_none_head c _ (fun he => hl (he ▸ List.mem_cons_self c cs))),
      ih (fun hm => hl (List.mem_cons_of_mem c hm))]

theorem parseHrefAt_canonical (u t y : Str) (hu : '\x7d' ∉ u) (ht : '\x7d' ∉ t) :
    parseHrefAt (mkHref u t ++ y) = some (mkHref u t, y) := by
  have htw_u : List.takeWhile (fun x => decide (x ≠ '\x7d'))
      (u ++ ('\x7d' :: '\x7b' :: (t ++ '\x7d' :: y))) = u := by
    rw [takeWhile_append_all _ u _ (fun c hc => by
      simp only [decide_eq_true_iff]
      exact fun he => hu (he ▸ hc))]
    simp [List.takeWhile_cons]
  have htw_t : List.takeWhile (fun x => decide (x ≠ '\x7d')) (t ++ '\x7d' :: y) = t := by
    rw [takeWhile_append_all _ t _ (fun c hc => by
      simp only [decide_eq_true_iff]
      exact fun he => ht (he ▸ hc))]
    simp [List.takeWhile_cons]
  rw [parseHrefAt, if_pos, mkHref_append_assoc,
    List.drop_left' (by decide : (str "\\href\x7b").length = 6)]
  · simp only [htw_u, List.drop_left, htw_t]
  · refine (isPrefixOf_iff _ _).mpr ⟨u ++ str "\x7d\x7b" ++ t ++ str "\x7d" ++ y, ?_⟩
    simp [mkHref, List.append_assoc]

/-- The findall scan on a text decomposed around one hyperlink command
finds exactly that command. -/
theorem findHrefs_single (x u t y : Str) (hx : '\\' ∉ x) (hy : '\\' ∉ y)
    (hu1 : '\\' ∉ u) (hu2 : '\x7d' ∉ u) (ht1 : '\\' ∉ t) (ht2 : '\x7d' ∉ t) :
    findHrefs (x ++ mkHref u t ++ y) = [mkHref u t] := by
  rw [List.append_assoc, findHrefs_pass x _ hx]
  rw [show mkHref u t ++ y = '\\' :: (str "href\x7b" ++ u ++ str "\x7d\x7b" ++ t ++
      str "\x7d" ++ y) from by rw [mkHref_cons]; simp [List.append_assoc]]
  rw [findHrefs_cons_some _ _ (mkHref u t) y (by
    rw [show ('\\' :: (str "href\x7b" ++ u ++ str "\x7d\x7b" ++ t ++ str "\x7d" ++ y) : Str) =
      mkHref u t ++ y from by rw [mkHref_cons]; simp [List.append_assoc]]
    exact parseHrefAt_canonical u t y hu2 ht2)]
  rw [findHrefs_id_no_bs y hy]

theorem ampNorm_append_no_bs (x y : Str) (hx : '\\' ∉ x) :
    ampNorm (x ++ y) = ampNorm x ++ ampNorm y := by
  induction x with
  | nil => rfl
  | cons c cs ih =>
    have hih := ih (fun hm => hx (List.mem_cons_of_mem c hm))
    by_cases hc : c = '&'
    · subst hc
      rw [List.cons_append, ampNorm.eq_2, ampNorm.eq_2, hih]
      rfl
    · have hcbs : c ≠ '\\' := fun he => hx (he ▸ List.mem_cons_self c cs)
      rw [List.cons_append,
        ampNorm.eq_5 c _ (fun h => hc h) (fun cs1 hb _ => hcbs hb) (fun h => hcbs h),
        ampNorm.eq_5 c cs (fun h => hc h) (fun cs1 hb _ => hcbs hb) (fun h => hcbs h),
        hih]
      rfl

theorem mem_ampNorm (a : Char) (s : Str) (h : a ∈ ampNorm s) : a ∈ s ∨ a = '\\' := by
  induction s using ampNorm.induct with
  | case1 => exact absurd h (List.not_mem_nil a)
  | case2 cs ih =>
    rw [ampNorm.eq_2] at h
    rcases List.mem_cons.mp h with rfl | h2
    · exact Or.inr rfl
    · rcases List.mem_cons.mp h2 with rfl | h3
      · exact Or.inl (List.mem_cons_self _ _)
      · rcases ih h3 with hm | hbs
        · exact Or.inl (List.mem_cons_of_mem _ hm)
        · exact Or.inr hbs
  | case3 cs ih =>
    rw [ampNorm.eq_3] at h
    rcases List.mem_cons.mp h with rfl | h2
    · exact Or.inr rfl
    · rcases List.mem_cons.mp h2 with rfl | h3
      · exact Or.inl (List.mem_cons_of_mem _ (List.mem_cons_self _ _))
      · rcases ih h3 with hm | hbs
        · exact Or.inl (List.mem_cons_of_mem _ (List.mem_cons_of_mem _ hm))
        · exact Or.inr hbs
  | case4 cs hcs ih =>
    rw [ampNorm.eq_4 cs hcs] at h
    rcases List.mem_cons.mp h with rfl | h2
    · exact Or.inr rfl
    · rcases ih h2 with hm | hbs
      · exact Or.inl (List.mem_cons_of_mem _ hm)
      · exact Or.inr hbs
  | case5 c cs hc1 hc2 hc3 ih =>
    rw [ampNorm.eq_5 c cs hc1 hc2 hc3] at h
    rcases List.mem_cons.mp h with rfl | h2
    · exact Or.inl (List.mem_cons_self _ _)
    · rcases ih h2 with hm | hbs
      · exact Or.inl (List.mem_cons_of_mem _ hm)
      · exact Or.inr hbs

theorem mem_charMap (a : Char) (h : Char → Str) (s : Str) (ha : a ∈ charMap h s) :
    ∃ c ∈ s, a ∈ h c := by
  induction s with
  | nil => exact absurd ha (List.not_mem_nil a)
  | cons c cs ih =>
    rcases List.mem_append.mp ha with h1 | h2
    · exact ⟨c, List.mem_cons_self c cs, h1⟩
    · obtain ⟨d, hd, hdin⟩ := ih h2
      exact ⟨d, List.mem_cons_of_mem c hd, hdin⟩

theorem escH_chars (c a : Char) (ha : a ∈ escH c) : a = c ∨ a ∈ repChars := by
  by_cases h1 : c = '%'
  · subst h1
    rw [show escH '%' = ['\\', '%'] from by decide] at ha
    exact Or.inr ((by decide : ∀ b ∈ (['\\', '%'] : Str), b ∈ repChars) a ha)
  by_cases h2 : c = '$'
  · subst h2
    rw [show escH '$' = ['\\', '$'] from by decide] at ha
    exact Or.inr ((by decide : ∀ b ∈ (['\\', '$'] : Str), b ∈ repChars) a ha)
  by_cases h3 : c = '#'
  · subst h3
    rw [show escH '#' = ['\\', '#'] from by decide] at ha
    exact Or.inr ((by decide : ∀ b ∈ (['\\', '#'] : Str), b ∈ repChars) a ha)
  by_cases h4 : c = '_'
  · subst h4
    rw [show escH '_' = ['\\', '_'] from by decide] at ha
    exact Or.inr ((by decide : ∀ b ∈ (['\\', '_'] : Str), b ∈ repChars) a ha)
  by_cases h5 : c = '\x7b'
  · subst h5
    rw [show escH '\x7b' = ['\\', '\x7b'] from by decide] at ha
    exact Or.inr ((by decide : ∀ b ∈ (['\\', '\x7b'] : Str), b ∈ repChars) a ha)
  by_cases h6 : c = '\x7d'
  · subst h6
    rw [show escH '\x7d' = ['\\', '\x7d'] from by decide] at ha
    exact Or.inr ((by decide : ∀ b ∈ (['\\', '\x7d'] : Str), b ∈ repChars) a ha)
  by_cases h7 : c = '~'
  · subst h7
    rw [show escH '~' = str "\\textasciitilde\x7b\x7d" from by decide] at ha
    exact Or.inr ((by decide : ∀ b ∈ str "\\textasciitilde\x7b\x7d", b ∈ repChars) a ha)
  by_cases h8 : c = '^'
  · subst h8
    rw [show escH '^' = str "\\textasciicircum\x7b\x7d" from by decide] at ha
    exact Or.inr ((by decide : ∀ b ∈ str "\\textasciicircum\x7b\x7d", b ∈ repChars) a ha)
  rw [escH_self c h1 h2 h3 h4 h5 h6 h7 h8] at ha
  exact Or.inl (List.mem_singleton.mp ha)

/-- Characters outside the escape alphabet never appear in the output of
the Escaper unless they occur in its input. -/
theorem escape_not_mem (a : Char) (s : Str) (ha1 : a ∉ repChars) (ha2 : a ≠ '\\')
    (hs : a ∉ s) : a ∉ escape_latex s := by
  rw [escape_char]
  intro hmem
  obtain ⟨c, hc, hin⟩ := mem_charMap a escH (ampNorm s) hmem
  rcases escH_chars c a hin with rfl | hrep
  · rcases mem_ampNorm a _ hc with hms | hbs
    · exact hs hms
    · exact ha2 hbs
  · exact ha1 hrep

theorem escape_append_no_bs (x y : Str) (hx : '\\' ∉ x) :
    escape_latex (x ++ y) = escape_latex x ++ escape_latex y := by
  rw [escape_char, escape_char, escape_char, ampNorm_append_no_bs x y hx, charMap_append]

/-- Escaping a text decomposed around a reserved-free backslash-free
block escapes the two sides and keeps the block. -/
theorem escape_three_split (x P y : Str) (hx : '\\' ∉ x) (hP1 : '\\' ∉ P)
    (hPres : ∀ c ∈ P, c ∉ reservedChars) :
    escape_latex (x ++ P ++ y) = escape_latex x ++ P ++ escape_latex y := by
  rw [List.append_assoc, escape_append_no_bs x _ hx, escape_append_no_bs P y hP1,
    escape_id_of_no_reserved P hPres, List.append_assoc]

/-- `replace` on a text holding exactly one occurrence of the pattern,
recognised by the pattern's head character being absent elsewhere. -/
theorem replaceAll_single_occurrence (rep x y : Str) (a : Char) (pt : Str)
    (hax : a ∉ x) (hay : a ∉ y) :
    replaceAll (a :: pt) rep (x ++ (a :: pt) ++ y) = x ++ rep ++ y := by
  rw [replaceAll_append_occur _ rep x y (by simp)
    (not_contains_append_short a pt x _ hax (by simp [List.length_dropLast])),
    replaceAll_of_not_contains _ rep y
      (fun hcs => hay (containsSeq_mem _ y a hcs (List.mem_cons_self a pt)))]

/-- Core of C3: protecting one hyperlink command behind its placeholder,
escaping, and restoring yields the escaped surroundings with the command
intact. -/
theorem protect_escape_restore_single (x y u t : Str) (hx1 : '\\' ∉ x)
    (hx2 : 'H' ∉ x) (hy1 : '\\' ∉ y) (hy2 : 'H' ∉ y) :
    restoreHrefs 0 [mkHref u t]
      (escape_latex (protectHrefs 0 [mkHref u t] (x ++ mkHref u t ++ y))) =
      escape_latex x ++ mkHref u t ++ escape_latex y := by
  show replaceAll (placeholderTok 0) (mkHref u t)
      (escape_latex (replaceAll (mkHref u t) (placeholderTok 0)
        (x ++ mkHref u t ++ y))) = _
  rw [show placeholderTok 0 = str "HREFPLACEHOLDER0" from by decide]
  rw [show replaceAll (mkHref u t) (str "HREFPLACEHOLDER0") (x ++ mkHref u t ++ y) =
      x ++ str "HREFPLACEHOLDER0" ++ y from by
    rw [mkHref_cons u t]
    exact replaceAll_single_occurrence (str "HREFPLACEHOLDER0") x y '\\' _ hx1 hy1]
  rw [escape_three_split x (str "HREFPLACEHOLDER0") y hx1 (by decide) (by decide)]
  rw [show (str "HREFPLACEHOLDER0" : Str) = 'H' :: str "REFPLACEHOLDER0" from rfl]
  exact replaceAll_single_occurrence (mkHref u t) (escape_latex x) (escape_latex y)
    'H' (str "REFPLACEHOLDER0")
    (escape_not_mem 'H' x (by decide) (by decide) hx2)
    (escape_not_mem 'H' y (by decide) (by decide) hy2)

/-- The link parser of the regex of line 137 succeeds on its canonical
input shape. -/
theorem parseLink_canonical (t u y : Str) (ht0 : t ≠ []) (ht : ']' ∉ t)
    (hu0 : u ≠ []) (hu : ')' ∉ u) :
    parseLink (t ++ ']' :: '(' :: (u ++ ')' :: y)) = some (t, u, y) := by
  have htw_t : List.takeWhile (fun x => decide (x ≠ ']'))
      (t ++ ']' :: '(' :: (u ++ ')' :: y)) = t := by
    rw [takeWhile_append_all _ t _ (fun c hc => by
      simp only [decide_eq_true_iff]
      exact fun he => ht (he ▸ hc))]
    simp [List.takeWhile_cons]
  have htw_u : List.takeWhile (fun x => decide (x ≠ ')')) (u ++ ')' :: y) = u := by
    rw [takeWhile_append_all _ u _ (fun c hc => by
      simp only [decide_eq_true_iff]
      exact fun he => hu (he ▸ hc))]
    simp [List.takeWhile_cons]
  simp only [parseLink, htw_t, List.drop_left, htw_u]
  rw [if_pos ⟨ht0, hu0⟩]

/-- The markdown pass on a text decomposed around one canonical link
rewrites exactly that link. -/
theorem mdSub_single_link (x t u y : Str) (hx : '[' ∉ x) (ht0 : t ≠ [])
    (ht : ']' ∉ t) (hu0 : u ≠ []) (hu : ')' ∉ u) (hy : '[' ∉ y) :
    mdSub (x ++ '[' :: (t ++ ']' :: '(' :: (u ++ ')' :: y))) =
      x ++ mkHref u t ++ y := by
  rw [mdSub_pass x _ hx,
    mdSub_cons_link _ t u y (parseLink_canonical t u y ht0 ht hu0 hu),
    mdSub_id y hy, List.append_assoc]

/-- Full translator run on a description decomposed around one canonical
markdown link: the link becomes the hyperlink command, the two sides are
escaped. -/
theorem translate_links_single (x t u y : Str)
    (hx1 : '\\' ∉ x) (hx2 : '[' ∉ x) (hx3 : 'H' ∉ x)
    (hy1 : '\\' ∉ y) (hy2 : '[' ∉ y) (hy3 : 'H' ∉ y)
    (ht0 : t ≠ []) (ht1 : ']' ∉ t) (ht2 : '\\' ∉ t) (ht3 : '\x7d' ∉ t)
    (hu0 : u ≠ []) (hu1 : ')' ∉ u) (hu2 : '\\' ∉ u) (hu3 : '\x7d' ∉ u) :
    translate_links (x ++ '[' :: (t ++ ']' :: '(' :: (u ++ ')' :: y))) =
      escape_latex x ++ mkHref u t ++ escape_latex y := by
  simp only [translate_links]
  rw [mdSub_single_link x t u y hx2 ht0 ht1 hu0 hu1 hy2,
    hrefCleanup_single x u t y hx1 hu2 hu3 ht2 hy1,
    findHrefs_single x u t y hx1 hy1 hu2 hu3 ht2 ht3]
  exact protect_escape_restore_single x y u t hx1 hx3 hy1 hy3

/-- Full translator run on a description with no bracket and no
backslash: every pass is a no-op and the text is simply escaped. -/
theorem translate_links_plain (d : Str) (h1 : '\\' ∉ d) (h2 : '[' ∉ d) :
    translate_links d = escape_latex d := by
  simp only [translate_links]
  rw [mdSub_id d h2, hrefCleanup_id_no_bs d h1, findHrefs_id_no_bs d h1]
  rfl

/-- Claim C3 (amended): on a description decomposed around one produced
hyperlink command whose surroundings hold no backslash and no capital H,
the protection step of lines 144 to 153 is correct: the command is
replaced by its placeholder, the remaining text is escaped, and the
command is restored intact at its position. As stated the claim is
false: the placeholder can collide with pre-existing literal placeholder
text of the description, and from eleven links on the placeholders
collide with each other. -/
theorem claim3_protection_correct (x y u t : Str) (hx1 : '\\' ∉ x)
    (hx2 : 'H' ∉ x) (hy1 : '\\' ∉ y) (hy2 : 'H' ∉ y) :
    restoreHrefs 0 [mkHref u t]
      (escape_latex (protectHrefs 0 [mkHref u t] (x ++ mkHref u t ++ y))) =
      escape_latex x ++ mkHref u t ++ escape_latex y :=
  protect_escape_restore_single x y u t hx1 hx2 hy1 hy2

/-- Witness for (the amended) C3 at a concrete input. -/
theorem claim3_witness :
    restoreHrefs 0 [mkHref (str "u") (str "a")]
      (escape_latex (protectHrefs 0 [mkHref (str "u") (str "a")]
        (str "see " ++ mkHref (str "u") (str "a") ++ str " now"))) =
      escape_latex (str "see ") ++ mkHref (str "u") (str "a") ++
        escape_latex (str " now") :=
  claim3_protection_correct (str "see ") (str " now") (str "u") (str "a")
    (by decide) (by decide) (by decide) (by decide)

set_option maxRecDepth 10000 in
/-- Counterexample to C3 as stated. First part: a description already
holding the literal placeholder text makes the restoration substitute
the command twice, instead of keeping the literal text. Second part:
with eleven links, the placeholder of link one is a prefix of the
placeholder of link eleven, so restoring link one corrupts the slot of
link eleven into the first command followed by a stray digit. -/
theorem claim3_counterexample :
    (translate_links (str "HREFPLACEHOLDER0 [a](u)") =
        str "\\href\x7bu\x7d\x7ba\x7d \\href\x7bu\x7d\x7ba\x7d" ∧
      translate_links (str "HREFPLACEHOLDER0 [a](u)") ≠
        str "HREFPLACEHOLDER0 \\href\x7bu\x7d\x7ba\x7d") ∧
    (translate_links (str "[a](u0) [b](u1) [c](u2) [d](u3) [e](u4) [f](u5) [g](u6) [h](u7) [i](u8) [j](u9) [k](u10)") =
        str "\\href\x7bu0\x7d\x7ba\x7d \\href\x7bu1\x7d\x7bb\x7d \\href\x7bu2\x7d\x7bc\x7d \\href\x7bu3\x7d\x7bd\x7d \\href\x7bu4\x7d\x7be\x7d \\href\x7bu5\x7d\x7bf\x7d \\href\x7bu6\x7d\x7bg\x7d \\href\x7bu7\x7d\x7bh\x7d \\href\x7bu8\x7d\x7bi\x7d \\href\x7bu9\x7d\x7bj\x7d \\href\x7bu1\x7d\x7bb\x7d0" ∧
      translate_links (str "[a](u0) [b](u1) [c](u2) [d](u3) [e](u4) [f](u5) [g](u6) [h](u7) [i](u8) [j](u9) [k](u10)") ≠
        str "\\href\x7bu0\x7d\x7ba\x7d \\href\x7bu1\x7d\x7bb\x7d \\href\x7bu2\x7d\x7bc\x7d \\href\x7bu3\x7d\x7bd\x7d \\href\x7bu4\x7d\x7be\x7d \\href\x7bu5\x7d\x7bf\x7d \\href\x7bu6\x7d\x7bg\x7d \\href\x7bu7\x7d\x7bh\x7d \\href\x7bu8\x7d\x7bi\x7d \\href\x7bu9\x7d\x7bj\x7d \\href\x7bu10\x7d\x7bk\x7d") := by
  have h2 : translate_links (str "[a](u0) [b](u1) [c](u2) [d](u3) [e](u4) [f](u5) [g](u6) [h](u7) [i](u8) [j](u9) [k](u10)") =
      str "\\href\x7bu0\x7d\x7ba\x7d \\href\x7bu1\x7d\x7bb\x7d \\href\x7bu2\x7d\x7bc\x7d \\href\x7bu3\x7d\x7bd\x7d \\href\x7bu4\x7d\x7be\x7d \\href\x7bu5\x7d\x7bf\x7d \\href\x7bu6\x7d\x7bg\x7d \\href\x7bu7\x7d\x7bh\x7d \\href\x7bu8\x7d\x7bi\x7d \\href\x7bu9\x7d\x7bj\x7d \\href\x7bu1\x7d\x7bb\x7d0" := by
    decide
  exact ⟨⟨by decide, by decide⟩, h2, by rw [h2]; decide⟩

/-- Claim C7 (amended): the proved guarantee is delimited to exactly
the two clauses below. First clause, one well-formed link: for a
description decomposed as x, then the link notation with display text t
and url u, then y, where t is non-empty and free of closing bracket,
backslash and closing brace, u is non-empty and free of closing
parenthesis, backslash and closing brace, and the surrounding texts x
and y are free of backslash, opening bracket and capital H, the
translator rewrites the link to the hyperlink command with the url as
first brace argument and the display text as second, and escapes x and
y normally. Second clause, zero matches: a description free of
backslash and opening bracket is simply escaped. Each exclusion bars a
falsifier of the original claim: backslash-holding non-matching text
(pre-existing hyperlink-command text) is returned verbatim, NOT escaped
normally; capital H admits literal placeholder text, which the
restoration overwrites with a second copy of the command instead of
escaping it; a closing brace inside a well-formed link's display text
cuts the protection scan short, so the produced command comes out with
an escaped brace inside it; the opening-bracket exclusion delimits the
clause to a single link. -/
theorem claim7_link_rewrite :
    (∀ x t u y : Str, '\\' ∉ x → '[' ∉ x → 'H' ∉ x →
      '\\' ∉ y → '[' ∉ y → 'H' ∉ y →
      t ≠ [] → ']' ∉ t → '\\' ∉ t → '\x7d' ∉ t →
      u ≠ [] → ')' ∉ u → '\\' ∉ u → '\x7d' ∉ u →
      translate_links (x ++ '[' :: (t ++ ']' :: '(' :: (u ++ ')' :: y))) =
        escape_latex x ++ mkHref u t ++ escape_latex y) ∧
    (∀ d : Str, '\\' ∉ d → '[' ∉ d → translate_links d = escape_latex d) :=
  ⟨fun x t u y hx1 hx2 hx3 hy1 hy2 hy3 ht0 ht1 ht2 ht3 hu0 hu1 hu2 hu3 =>
    translate_links_single x t u y hx1 hx2 hx3 hy1 hy2 hy3
      ht0 ht1 ht2 ht3 hu0 hu1 hu2 hu3,
  fun d h1 h2 => translate_links_plain d h1 h2⟩

/-- Witness for (the amended) C7 at concrete inputs: one single-link
description, one description with no match. -/
theorem claim7_witness :
    translate_links (str "see " ++ '[' :: (str "a" ++ ']' :: '(' ::
        (str "http://b" ++ ')' :: str " now"))) =
      escape_latex (str "see ") ++ mkHref (str "http://b") (str "a") ++
        escape_latex (str " now") ∧
    translate_links (str "x_y ]( bad") = escape_latex (str "x_y ]( bad") :=
  ⟨claim7_link_rewrite.1 (str "see ") (str "a") (str "http://b") (str " now")
      (by decide) (by decide) (by decide) (by decide) (by decide) (by decide)
      (by decide) (by decide) (by decide) (by decide)
      (by decide) (by decide) (by decide) (by decide),
    claim7_link_rewrite.2 (str "x_y ]( bad") (by decide) (by decide)⟩

/-- Counterexample to C7 as stated, in three parts. First: a description
that already holds a hyperlink command matches no link notation, yet is
returned verbatim, not escaped normally. Second: backslash-free
non-matching text holding the literal placeholder text is replaced by a
second copy of the command, neither preserved nor escaped. Third: the
link notation with display text a-closing brace-b is well-formed for
the match regex (its display-text class excludes only the closing
bracket), yet the rewritten command loses its protection at the inner
closing brace and the output holds an escaped brace in place of the
command's closing brace, instead of the intact command. -/
theorem claim7_counterexample :
    (translate_links (str "\\href\x7bx\x7d\x7by\x7d") =
        str "\\href\x7bx\x7d\x7by\x7d" ∧
      translate_links (str "\\href\x7bx\x7d\x7by\x7d") ≠
        escape_latex (str "\\href\x7bx\x7d\x7by\x7d")) ∧
    (translate_links (str "HREFPLACEHOLDER0 [b](v)") =
        str "\\href\x7bv\x7d\x7bb\x7d \\href\x7bv\x7d\x7bb\x7d" ∧
      translate_links (str "HREFPLACEHOLDER0 [b](v)") ≠
        str "HREFPLACEHOLDER0 \\href\x7bv\x7d\x7bb\x7d") ∧
    (translate_links (str "[a\x7db](u)") =
        str "\\href\x7bu\x7d\x7ba\x7db\\\x7d" ∧
      translate_links (str "[a\x7db](u)") ≠
        str "\\href\x7bu\x7d\x7ba\x7db\x7d") := by
  exact ⟨⟨by decide, by decide⟩, ⟨by decide, by decide⟩, ⟨by decide, by decide⟩⟩

end YamlResume
